import Mathlib

/-!
# json2csv2xlsx: the tabular encoders and the request handler of `main.go`

A shallow embedding of `generateCSV`, `generateXLSX`, `getKeys`, `makeFile`
and `handleRequest`, together with the parts of the Go libraries they call
(`fmt.Sprintf("%v", _)`, the writer and the reader of `encoding/csv`,
`path/filepath`, the workbook API of `xlsx`), followed by theorems about them.

Conventions of the embedding:

* a Go `string` holding valid UTF-8 is a Lean `String`, a `[]byte` is a list
  of numbers (`Bytes`), and text reaches a `bytes.Buffer` as its UTF-8 bytes;
* a Go `map[string]interface{}` is an association list, read with
  `Record.lookup` (the first binding of a key is the current one) and
  enumerated by a `MapRange`, the order in which the runtime happens to
  yield the keys in a `range` loop;
* a function returning `(T, error)` returns `Except String T`;
* the file system, the clock and the serialisation of a workbook are
  arguments of the functions that use them.
-/

namespace DocMaker

deriving instance DecidableEq for Except

/-! ## Values and their `%v` form -/

/-- Dynamic value stored in an `interface{}` by `encoding/json`: `nil`, `bool`,
`float64`, `string`, `[]interface{}` or `map[string]interface{}`.  A `float64`
is carried as the text that `%v` prints for it (the shortest `%g` form, which
determines the number), since this program observes numbers in no other way. -/
inductive Value where
  | null
  | bool (b : Bool)
  | number (text : String)
  | string (s : String)
  | array (xs : List Value)
  | object (kvs : List (String × Value))

/-- Go map `map[string]interface{}` as an association list. -/
abbrev Record := List (String × Value)

/-- Lookup `value, ok := m[key]`: `none` stands for `ok == false`. -/
def lookupKey {κ α : Type} [DecidableEq κ] (key : κ) : List (κ × α) → Option α
  | [] => none
  | (k, v) :: rest => if k = key then some v else lookupKey key rest

/-- Key set of a map, each key once. -/
def keysOf {α : Type} (m : List (String × α)) : List String :=
  (m.map Prod.fst).dedup

/-- Lookup `record[header]` in the comma-ok form. -/
def Record.lookup (m : Record) (key : String) : Option Value := lookupKey key m

/-- Keys of a record, each once, in no particular order. -/
def Record.keys (m : Record) : List String := keysOf m

/-- Order of Go strings (bytewise, which on UTF-8 text is the order of the
code points). -/
def ltChars : List Char → List Char → Bool
  | _, [] => false
  | [], _ :: _ => true
  | a :: as, b :: bs => decide (a.toNat < b.toNat) || (a = b && ltChars as bs)

/-- Insert a key in a list of keys sorted in increasing order. -/
def insertKey (k : String) : List String → List String
  | [] => [k]
  | x :: xs => if ltChars k.data x.data then k :: x :: xs else x :: insertKey k xs

/-- Sort keys in increasing order, as `fmt` does before printing a map. -/
def sortKeys : List String → List String
  | [] => []
  | k :: ks => insertKey k (sortKeys ks)

mutual
/-- Text of `fmt.Sprintf("%v", value)`. -/
def sprintV : Value → String
  | .null => "<nil>"
  | .bool b => if b then "true" else "false"
  | .number text => text
  | .string s => s
  | .array xs => "[" ++ " ".intercalate (sprintVs xs) ++ "]"
  | .object kvs =>
      let texts := sprintKVs kvs
      "map[" ++ " ".intercalate
        ((sortKeys (keysOf texts)).map
          (fun k => k ++ ":" ++ (lookupKey k texts).getD "")) ++ "]"
/-- Texts of the elements of a slice. -/
def sprintVs : List Value → List String
  | [] => []
  | x :: xs => sprintV x :: sprintVs xs
/-- Texts of the values of a nested map, key by key. -/
def sprintKVs : List (String × Value) → List (String × String)
  | [] => []
  | (k, v) :: rest => (k, sprintV v) :: sprintKVs rest
end

/-! ## Bytes -/

/-- Byte string: each element is one byte, a number below 256. -/
abbrev Bytes := List Nat

/-- UTF-8 encoding of one code point. -/
def utf8EncodeChar (c : Char) : Bytes :=
  let v := c.toNat
  if v < 0x80 then [v]
  else if v < 0x800 then [0xC0 + v / 0x40, 0x80 + v % 0x40]
  else if v < 0x10000 then [0xE0 + v / 0x1000, 0x80 + v / 0x40 % 0x40, 0x80 + v % 0x40]
  else [0xF0 + v / 0x40000, 0x80 + v / 0x1000 % 0x40, 0x80 + v / 0x40 % 0x40, 0x80 + v % 0x40]

/-- Bytes of a text, the way Go holds a `string` in memory. -/
def utf8 : List Char → Bytes
  | [] => []
  | c :: cs => utf8EncodeChar c ++ utf8 cs

/-- Bytes of a Go string. -/
def bytesOf (s : String) : Bytes := utf8 s.data

/-! ## `encoding/csv`: the writer -/

/-- Predicate `unicode.IsSpace`. -/
def isSpace (c : Char) : Bool :=
  c = '\t' || c = '\n' || c = '\x0b' || c = '\x0c' || c = '\r' || c = ' ' ||
  c.toNat = 0x85 || c.toNat = 0xA0 || c.toNat = 0x1680 ||
  (0x2000 ≤ c.toNat && c.toNat ≤ 0x200A) ||
  c.toNat = 0x2028 || c.toNat = 0x2029 || c.toNat = 0x202F ||
  c.toNat = 0x205F || c.toNat = 0x3000

/-- Characters that force quoting when the delimiter is the comma. -/
def isSpecial (c : Char) : Bool :=
  c = '\n' || c = '\r' || c = '"' || c = ','

/-- Method `(*csv.Writer).fieldNeedsQuotes` with `Comma = ','`. -/
def fieldNeedsQuotes (field : List Char) : Bool :=
  if field = [] then false
  else if field = ['\\', '.'] then true
  else if field.any isSpecial then true
  else match field with
    | [] => false
    | r1 :: _ => isSpace r1

/-- Inside of a quoted field: every `"` is written twice, `\r` and `\n` are
written as they are (`UseCRLF` is false). -/
def writeQuoted : List Char → List Char
  | [] => []
  | c :: cs => if c = '"' then '"' :: '"' :: writeQuoted cs else c :: writeQuoted cs

/-- One field as `(*csv.Writer).Write` emits it. -/
def writeField (field : List Char) : List Char :=
  if fieldNeedsQuotes field then '"' :: (writeQuoted field ++ ['"']) else field

/-- Fields of one record, a comma before every field but the first. -/
def writeFields : List String → List Char
  | [] => []
  | [f] => writeField f.data
  | f :: fs => writeField f.data ++ ',' :: writeFields fs

/-- Text of one record as `(*csv.Writer).Write` emits it: the fields, then `\n`. -/
def writeRecord (record : List String) : List Char :=
  writeFields record ++ ['\n']

/-- The quoted form of a field in the words of the CSV rule: a double quote,
the field with every double quote in it written twice, a double quote. -/
def quotedForm (field : List Char) : List Char :=
  ['"'] ++ (field.map (fun c => if c = '"' then ['"', '"'] else [c])).flatten ++ ['"']

/-- Text of several records, one after the other. -/
def writeRecords : List (List String) → List Char
  | [] => []
  | record :: rest => writeRecord record ++ writeRecords rest

/-- Method `(*csv.Writer).Write` followed by the flush into the `bytes.Buffer`:
the bytes of the record are appended to the buffer.  With the comma as
delimiter and a `bytes.Buffer` underneath, `Write` returns no error. -/
def csvWrite (buf : Bytes) (record : List String) : Bytes :=
  buf ++ utf8 (writeRecord record)

/-! ## `encoding/csv`: the reader

`csv.NewReader(r).ReadAll()` with the default settings (comma as delimiter,
no comment character, `FieldsPerRecord = 0`, `LazyQuotes` and
`TrimLeadingSpace` off).  The reader takes its input line by line and
`readLine` rewrites each line before it is parsed: a `\r` right before the
final `\n` goes, and so does a `\r` that ends the input.  Lines are cut at
`\n`, which the rewriting leaves in place, so it is done here on the whole
input (`normalizeNL`), and the parser then runs byte by byte over the result. -/

/-- Rewriting of line ends by `readLine`. -/
def normalizeNL : Bytes → Bytes
  | [] => []
  | b :: rest =>
      if b = 13 ∧ (rest = [] ∨ rest.head? = some 10) then normalizeNL rest
      else b :: normalizeNL rest

/-- Errors of the reader: `ErrBareQuote`, `ErrQuote`, `ErrFieldCount`. -/
inductive ReadErr where
  | bareQuote
  | quote
  | fieldCount
deriving DecidableEq, Repr

/-- Where the parser stands: at the start of a line, at the start of a field
after a comma, inside a non-quoted field, inside a quoted field, or right
after a `"` met inside a quoted field. -/
inductive Mode where
  | lineStart
  | fieldStart
  | unquoted
  | quoted
  | quoteSeen
deriving DecidableEq, Repr

/-- State of the parser: the bytes of the field being read, the fields
already read of the current record, the records already read. -/
structure Reader where
  mode : Mode
  field : Bytes
  fields : List Bytes
  records : List (List Bytes)
deriving DecidableEq, Repr

/-- The current field ends and another one follows. -/
def Reader.endField (r : Reader) : Reader :=
  { mode := .fieldStart, field := [], fields := r.fields ++ [r.field], records := r.records }

/-- A record is complete.  The first record fixes the number of fields of
every later one. -/
def commitRecord (records : List (List Bytes)) (record : List Bytes) : Except ReadErr Reader :=
  match records with
  | [] => .ok { mode := .lineStart, field := [], fields := [], records := [record] }
  | first :: _ =>
      if record.length = first.length then
        .ok { mode := .lineStart, field := [], fields := [], records := records ++ [record] }
      else .error .fieldCount

/-- The current field and the record end. -/
def Reader.endRecord (r : Reader) : Except ReadErr Reader :=
  commitRecord r.records (r.fields ++ [r.field])

/-- One byte of input: `10` is `\n`, `34` the quote, `44` the comma. -/
def Reader.step (r : Reader) (b : Nat) : Except ReadErr Reader :=
  match r.mode with
  | .lineStart =>
      if b = 10 then .ok r
      else if b = 34 then .ok { r with mode := .quoted }
      else if b = 44 then .ok r.endField
      else .ok { r with mode := .unquoted, field := [b] }
  | .fieldStart =>
      if b = 10 then r.endRecord
      else if b = 34 then .ok { r with mode := .quoted }
      else if b = 44 then .ok r.endField
      else .ok { r with mode := .unquoted, field := [b] }
  | .unquoted =>
      if b = 10 then r.endRecord
      else if b = 34 then .error .bareQuote
      else if b = 44 then .ok r.endField
      else .ok { r with field := r.field ++ [b] }
  | .quoted =>
      if b = 34 then .ok { r with mode := .quoteSeen }
      else .ok { r with field := r.field ++ [b] }
  | .quoteSeen =>
      if b = 10 then r.endRecord
      else if b = 34 then .ok { r with mode := .quoted, field := r.field ++ [34] }
      else if b = 44 then .ok r.endField
      else .error .quote

/-- End of the input. -/
def Reader.finish (r : Reader) : Except ReadErr (List (List Bytes)) :=
  match r.mode with
  | .lineStart => .ok r.records
  | .quoted => .error .quote
  | _ => match r.endRecord with
    | .ok r1 => .ok r1.records
    | .error e => .error e

/-- The parser over the rest of the input. -/
def Reader.run (r : Reader) : Bytes → Except ReadErr (List (List Bytes))
  | [] => r.finish
  | b :: rest =>
      match r.step b with
      | .ok r1 => r1.run rest
      | .error e => .error e

/-- Method `(*csv.Reader).ReadAll`: every record of the input, or the first error. -/
def csvReadAll (input : Bytes) : Except ReadErr (List (List Bytes)) :=
  Reader.run ⟨.lineStart, [], [], []⟩ (normalizeNL input)

/-- Records read back by header: the first row names the columns, every
other row is paired with it field by field. -/
def recordsByHeader (rows : List (List Bytes)) : List (List (Bytes × Bytes)) :=
  match rows with
  | [] => []
  | header :: rest => rest.map (fun row => header.zip row)

/-- Test that a byte string holds no `\r` that `readLine` would take away: none
right before a `\n`, none at the very end. -/
def crSafe : Bytes → Bool
  | [] => true
  | b :: rest => !(b = 13 && (rest.isEmpty || rest.head? = some 10)) && crSafe rest

/-- Test that a text holds no `\r` immediately followed by `\n`. -/
def noCRLF : List Char → Bool
  | [] => true
  | c :: cs => !(c = '\r' && cs.head? = some '\n') && noCRLF cs

/-! ## Map enumeration -/

/-- Order in which the runtime enumerates a map in a `for key := range m` loop.
The first argument tells the `range` statements of one run apart: `0` is the
loop over `data[0]` that collects the headers, `i + 1` the loop of `getKeys`
for the record of index `i`. -/
abbrev MapRange := Nat → Record → List String

/-- Every enumeration visits each key of the map exactly once. -/
def MapRange.Valid (ρ : MapRange) : Prop :=
  ∀ (n : Nat) (m : Record), (ρ n m).Perm (Record.keys m)

/-- Enumeration that yields the keys in the order `Record.keys` lists them. -/
def rangeKeys : MapRange := fun _ m => m.keys

/-- Enumeration that yields the keys in that order for the header loop and in
the opposite order for every call of `getKeys`. -/
def rangeMixed : MapRange := fun n m => if n = 0 then m.keys else m.keys.reverse

/-- Enumeration that yields the keys in the opposite order everywhere. -/
def rangeReversed : MapRange := fun _ m => m.keys.reverse

/-! ## `generateCSV` -/

/-- Headers collected by `for key := range data[0] { headers = append(headers, key) }`. -/
def collectHeaders (ρ : MapRange) (first : Record) : List String :=
  (ρ 0 first).foldl (fun headers key => headers ++ [key]) []

/-- Slice `recordValues` of one record: the `%v` text under each header the
record has, the zero string elsewhere. -/
def recordValues (headers : List String) (record : Record) : List String :=
  headers.map (fun header =>
    match record.lookup header with
    | some value => sprintV value
    | none => "")

/-- Function `generateCSV`. -/
def generateCSV (ρ : MapRange) (data : List Record) : Except String Bytes :=
  match data with
  | [] => .error "no data provided"
  | first :: _ =>
      let headers := collectHeaders ρ first
      let buf := csvWrite [] headers
      let buf := data.foldl (fun buf record => csvWrite buf (recordValues headers record)) buf
      .ok buf

/-! ## The `xlsx` workbook API and `generateXLSX` -/

/-- Cell of a sheet; `Value` is the field the program assigns. -/
structure Cell where
  Value : String
deriving DecidableEq, Repr

/-- Row of a sheet. -/
structure Row where
  Cells : List Cell
deriving DecidableEq, Repr

/-- Sheet of a workbook. -/
structure Sheet where
  Name : String
  Rows : List Row
deriving DecidableEq, Repr

/-- Workbook `xlsx.File`. -/
structure File where
  Sheets : List Sheet
deriving DecidableEq, Repr

/-- Constructor `xlsx.NewFile()`: a workbook without sheets. -/
def NewFile : File := ⟨[]⟩

/-- Method `(*xlsx.File).AddSheet`: refuses a name already in use and a name
that is empty or longer than 31 characters, else appends an empty sheet. -/
def File.AddSheet (f : File) (sheetName : String) : Except String File :=
  if f.Sheets.any (fun sh => sh.Name = sheetName) then
    .error "duplicate sheet name"
  else if sheetName.length = 0 ∨ 31 < sheetName.length then
    .error "sheet name must be 31 or fewer characters long"
  else
    .ok ⟨f.Sheets ++ [⟨sheetName, []⟩]⟩

/-- Method `(*xlsx.Row).AddCell` followed by `cell.Value = value`. -/
def Row.AddCell (row : Row) (value : String) : Row :=
  ⟨row.Cells ++ [⟨value⟩]⟩

/-- Method `(*xlsx.Sheet).AddRow` on the sheet added last, the row given with
the cells the program puts in it before the next row is added. -/
def File.AddRow (f : File) (row : Row) : File :=
  match f.Sheets.reverse with
  | [] => f
  | sheet :: before => ⟨before.reverse ++ [⟨sheet.Name, sheet.Rows ++ [row]⟩]⟩

/-- Function `getKeys`, called for the record of index `i`. -/
def getKeys (ρ : MapRange) (i : Nat) (m : Record) : List String :=
  (ρ (i + 1) m).foldl (fun keys k => keys ++ [k]) []

/-- Index expression `record[key]`: the zero value `nil` for an absent key. -/
def Record.index (m : Record) (key : String) : Value :=
  (m.lookup key).getD .null

/-- Header row of `generateXLSX`: one cell per key of `data[0]`, in the order
the `range` loop yields them. -/
def xlsxHeaderRow (ρ : MapRange) (first : Record) : Row :=
  (ρ 0 first).foldl (fun headerRow key => headerRow.AddCell key) ⟨[]⟩

/-- Data row of `generateXLSX` for the record of index `i`: one cell per key
that `getKeys` returns for this record. -/
def xlsxDataRow (ρ : MapRange) (i : Nat) (record : Record) : Row :=
  (getKeys ρ i record).foldl (fun row key => row.AddCell (sprintV (record.index key))) ⟨[]⟩

/-- Data rows of the sheet for the records from index `i` on. -/
def xlsxDataRows (ρ : MapRange) : Nat → List Record → List Row
  | _, [] => []
  | i, record :: rest => xlsxDataRow ρ i record :: xlsxDataRows ρ (i + 1) rest

/-- Loop `for _, record := range data` of `generateXLSX`, from index `i` on. -/
def xlsxAddRows (ρ : MapRange) : Nat → List Record → File → File
  | _, [], file => file
  | i, record :: rest, file => xlsxAddRows ρ (i + 1) rest (file.AddRow (xlsxDataRow ρ i record))

/-- Workbook that `generateXLSX` has built when it calls `file.Write`. -/
def xlsxWorkbook (ρ : MapRange) (data : List Record) : Except String File :=
  match NewFile.AddSheet "Sheet1" with
  | .error err => .error err
  | .ok file =>
      match data with
      | [] => .ok file
      | first :: _ => .ok (xlsxAddRows ρ 0 data (file.AddRow (xlsxHeaderRow ρ first)))

/-- Function `generateXLSX`; `write` is `(*xlsx.File).Write` into a fresh
`bytes.Buffer`, the serialisation of the workbook by the `xlsx` library. -/
def generateXLSX (write : File → Except String Bytes) (ρ : MapRange) (data : List Record) :
    Except String Bytes :=
  match xlsxWorkbook ρ data with
  | .error err => .error err
  | .ok file => write file

/-! ## `path/filepath` -/

/-- Elements of a path: the pieces between the slashes. -/
def splitSlash : List Char → List (List Char)
  | [] => [[]]
  | c :: cs =>
      if c = '/' then [] :: splitSlash cs
      else match splitSlash cs with
        | [] => [[c]]
        | e :: es => (c :: e) :: es

/-- One step of `filepath.Clean` over the elements kept so far (`out`, the last
one first): an empty element and `.` are dropped, `..` removes the element
before it, or is dropped at the root, or is kept at the front of a relative
path, any other element is kept. -/
def cleanStep (rooted : Bool) (out : List (List Char)) (elem : List Char) : List (List Char) :=
  if elem = [] ∨ elem = ['.'] then out
  else if elem = ['.', '.'] then
    match out with
    | [] => if rooted then [] else [elem]
    | last :: before => if last = ['.', '.'] then elem :: out else before
  else elem :: out

/-- Join elements with slashes. -/
def joinSlash : List (List Char) → List Char
  | [] => []
  | [e] => e
  | e :: es => e ++ '/' :: joinSlash es

/-- Function `filepath.Clean` on a Unix path. -/
def filepathClean (path : String) : String :=
  match path.data with
  | [] => "."
  | c :: cs =>
      let rooted : Bool := c = '/'
      let out := ((splitSlash (c :: cs)).foldl (cleanStep rooted) []).reverse
      let cleaned := (if rooted then ['/'] else []) ++ joinSlash out
      if cleaned = [] then "." else String.mk cleaned

/-- Call `filepath.Join(dir, name)` with `dir` not empty: the two joined by a
slash, then cleaned. -/
def filepathJoin (dir name : String) : String :=
  if name = "" then filepathClean dir else filepathClean (dir ++ "/" ++ name)

/-- Function `filepath.Base`: the last element of the path, trailing slashes
removed first; `.` for the empty path and `/` for a path of slashes only. -/
def filepathBase (path : String) : String :=
  if path = "" then "."
  else
    match (path.data.reverse.dropWhile (fun c => c = '/')).reverse with
    | [] => "/"
    | trimmed => String.mk ((splitSlash trimmed).getLast?.getD [])

/-- Test whether `pat` occurs in a text as a run of consecutive characters. -/
def hasInfix (pat : List Char) : List Char → Bool
  | [] => pat.isEmpty
  | c :: cs => pat.isPrefixOf (c :: cs) || hasInfix pat cs

/-- Test whether a cleaned path is the storage root `/tmp` or lies below it. -/
def insideTmp (path : String) : Bool :=
  path = "/tmp" || ['/', 't', 'm', 'p', '/'].isPrefixOf path.data

/-! ## The file store -/

/-- File system as the program sees it: the content stored under each path
(the first binding of a path is the current one) and the paths that cannot be
created or overwritten. -/
structure FS where
  files : List (String × Bytes)
  denied : List String
deriving DecidableEq

/-- Function `os.ReadFile`. -/
def FS.readFile (fs : FS) (path : String) : Except String Bytes :=
  match lookupKey path fs.files with
  | some content => .ok content
  | none => .error "no such file or directory"

/-- Function `os.WriteFile`: creates the file or replaces its content. -/
def FS.writeFile (fs : FS) (path : String) (data : Bytes) : Except String FS :=
  if path ∈ fs.denied then .error "permission denied"
  else .ok { fs with files := (path, data) :: fs.files }

/-- Verb `%d` on an `int64`. -/
def sprintD : Int → String
  | .ofNat n => Nat.repr n
  | .negSucc n => "-" ++ Nat.repr (n + 1)

/-- Function `makeFile`; `now` is the value of `time.Now().Unix()`. -/
def makeFile (now : Int) (fs : FS) (data : Bytes) (docType : String) :
    Except String (String × FS) :=
  let fileName := "file_" ++ sprintD now ++ "." ++ docType
  let filePath := filepathJoin "/tmp" fileName
  match fs.writeFile filePath data with
  | .error err => .error err
  | .ok fs1 => .ok (filePath, fs1)

/-! ## The request handler -/

/-- Struct `DocMakerProps`. -/
structure DocMakerProps where
  Data : List Record
  TypeofDoc : String

/-- What `handleRequest` reads of an `*http.Request`: the method, the outcome
of decoding the body as JSON into a `DocMakerProps` (`none` when `Decode`
returns an error; a field absent from the document keeps its zero value), and
`r.URL.Query().Get("file")` (empty when the parameter is absent). -/
structure Request where
  Method : String
  Body : Option DocMakerProps
  FileParam : String

/-- What `handleRequest` writes to the `http.ResponseWriter`. -/
structure Response where
  Status : Nat
  Header : List (String × String)
  Body : Bytes
deriving DecidableEq

/-- Calls made while a request is handled, in order. -/
inductive Event where
  | generateCSV
  | generateXLSX
  | writeFile (path : String)
  | readFile (path : String)
deriving DecidableEq

/-- What surrounds one call of `handleRequest`: the clock, the enumeration
order of maps, the serialisation of a workbook. -/
structure Env where
  now : Int
  ρ : MapRange
  write : File → Except String Bytes

/-- Function `http.Error`. -/
def httpError (msg : String) (code : Nat) : Response :=
  { Status := code
    Header := [("Content-Type", "text/plain; charset=utf-8"), ("X-Content-Type-Options", "nosniff")]
    Body := bytesOf (msg ++ "\n") }

/-- Function `handleRequest`: the response, the file system afterwards and the
calls made.  The JSON body of the answer to a POST is written out directly:
the link holds no character that `encoding/json` escapes. -/
def handleRequest (env : Env) (fs : FS) (r : Request) : Response × FS × List Event :=
  if r.Method = "POST" then
    match r.Body with
    | none => (httpError "Invalid request body" 400, fs, [])
    | some props =>
        let generated : Option (Except String Bytes × Event) :=
          if props.TypeofDoc = "csv" then
            some (generateCSV env.ρ props.Data, Event.generateCSV)
          else if props.TypeofDoc = "xlsx" then
            some (generateXLSX env.write env.ρ props.Data, Event.generateXLSX)
          else none
        match generated with
        | none => (httpError "Invalid document type" 400, fs, [])
        | some (.error err, ev) => (httpError ("Error generating file: " ++ err) 500, fs, [ev])
        | some (.ok fileBuffer, ev) =>
            let attempted := filepathJoin "/tmp" ("file_" ++ sprintD env.now ++ "." ++ props.TypeofDoc)
            match makeFile env.now fs fileBuffer props.TypeofDoc with
            | .error err =>
                (httpError ("Error saving file: " ++ err) 500, fs, [ev, Event.writeFile attempted])
            | .ok (filePath, fs1) =>
                let fileName := filepathBase filePath
                let downloadLink := "http://localhost:3000/download?file=" ++ fileName
                ({ Status := 200
                   Header := [("Content-Type", "application/json")]
                   Body := bytesOf ("\x7b\"downloadLink\":\"" ++ downloadLink ++ "\"\x7d\n") },
                 fs1, [ev, Event.writeFile filePath])
  else if r.Method = "GET" then
    let fileName := r.FileParam
    if fileName = "" then (httpError "File name is missing" 400, fs, [])
    else
      let filePath := filepathJoin "/tmp" fileName
      match fs.readFile filePath with
      | .error _ => (httpError "File not found" 404, fs, [Event.readFile filePath])
      | .ok fileBytes =>
          ({ Status := 200
             Header := [("Content-Type", "application/octet-stream"),
                        ("Content-Disposition", "attachment; filename=" ++ fileName)]
             Body := fileBytes },
           fs, [Event.readFile filePath])
  else (httpError "Method not allowed" 405, fs, [])

/-- The round trip of a record set through CSV: `generateCSV` returns bytes, the
reader reads rows back from them, the rows after the first make as many
records as the input has, and the record of index `i`, read by header, maps
every key of the input record of index `i` to the `%v` text of its value. -/
def CsvRoundTrips (ρ : MapRange) (data : List Record) : Prop :=
  ∃ (out : Bytes) (rows : List (List Bytes)),
    generateCSV ρ data = .ok out ∧
    csvReadAll out = .ok rows ∧
    (recordsByHeader rows).length = data.length ∧
    ∀ (i : Nat) (record : Record) (key : String) (value : Value),
      data[i]? = some record → record.lookup key = some value →
      ∃ parsed : List (Bytes × Bytes), (recordsByHeader rows)[i]? = some parsed ∧
        lookupKey (bytesOf key) parsed = some (bytesOf (sprintV value))

/-- Every record of the set has the keys of the first one and no other. -/
def UniformKeys (data : List Record) : Prop :=
  ∀ first ∈ data.head?, ∀ record ∈ data, ∀ key : String,
    (record.lookup key).isSome = (first.lookup key).isSome

/-! ## Sample surroundings -/

/-- Serialisation standing in for the library in examples: it fails on a
workbook without sheets, as the library does, and else returns a few bytes. -/
def sampleWrite : File → Except String Bytes :=
  fun f => if f.Sheets = [] then .error "workbook must contain at least one worksheet"
    else .ok [80, 75, f.Sheets.length]

/-- Surroundings used in examples. -/
def sampleEnv : Env := ⟨1700000000, rangeKeys, sampleWrite⟩

/-- File system used in examples: one file outside the storage root. -/
def sampleFS : FS := ⟨[("/etc/passwd", bytesOf "root:x:0:0")], []⟩

/-- Record set used in examples: two records with the keys `a` and `b`, among
the values an empty text, a null and a text with a comma, quotes, a carriage
return and a line feed. -/
def sampleTable : List Record :=
  [[("a", Value.number "1"), ("b", Value.string "x,\r\"y\"\n")],
   [("b", Value.null), ("a", Value.string "")]]

/-! # Theorems -/

/-! ## Map enumeration and lookup -/

theorem foldl_snoc (l init : List String) :
    l.foldl (fun acc k => acc ++ [k]) init = init ++ l := by
  induction l generalizing init with
  | nil => simp
  | cons x xs ih => simp [ih]

theorem collectHeaders_eq (ρ : MapRange) (first : Record) : collectHeaders ρ first = ρ 0 first := by
  simp [collectHeaders, foldl_snoc]

theorem getKeys_eq (ρ : MapRange) (i : Nat) (m : Record) : getKeys ρ i m = ρ (i + 1) m := by
  simp [getKeys, foldl_snoc]

theorem lookupKey_isSome_iff {α : Type} (key : String) (m : List (String × α)) :
    (lookupKey key m).isSome = true ↔ key ∈ keysOf m := by
  induction m with
  | nil => simp [lookupKey, keysOf]
  | cons p rest ih =>
      obtain ⟨k, v⟩ := p
      simp only [keysOf, List.mem_dedup, List.map_cons, List.mem_cons, lookupKey] at ih ⊢
      by_cases h : k = key
      · simp [h]
      · simp only [h, if_false, ih]
        constructor
        · intro hm; exact Or.inr hm
        · rintro (h1 | h1)
          · exact absurd h1.symm h
          · exact h1

theorem keysOf_nodup {α : Type} (m : List (String × α)) : (keysOf m).Nodup :=
  List.nodup_dedup _

theorem utf8_append (a b : List Char) : utf8 (a ++ b) = utf8 a ++ utf8 b := by
  induction a with
  | nil => rfl
  | cons c cs ih => simp [utf8, ih]

theorem foldl_csvWrite (rows : List (List String)) (buf : Bytes) :
    rows.foldl csvWrite buf = buf ++ utf8 (writeRecords rows) := by
  induction rows generalizing buf with
  | nil => simp [writeRecords, utf8]
  | cons r rs ih => simp [ih, csvWrite, writeRecords, utf8_append]

theorem generateCSV_cons (ρ : MapRange) (first : Record) (rest : List Record) :
    generateCSV ρ (first :: rest) =
      .ok (utf8 (writeRecords (ρ 0 first :: (first :: rest).map (recordValues (ρ 0 first))))) := by
  have h := foldl_csvWrite ((first :: rest).map (recordValues (ρ 0 first))) (csvWrite [] (ρ 0 first))
  rw [List.foldl_map] at h
  simp only [generateCSV, collectHeaders_eq, h]
  simp [csvWrite, writeRecords, utf8_append]

theorem rangeKeys_valid : MapRange.Valid rangeKeys := fun _ _ => List.Perm.refl _

/-- Cell under a header, as `generateCSV` fills it. -/
theorem recordValues_getElem? (headers : List String) (record : Record) (j : Nat) (key : String)
    (h : headers[j]? = some key) :
    (recordValues headers record)[j]? =
      some (match record.lookup key with
        | some value => sprintV value
        | none => "") := by
  simp [recordValues, List.getElem?_map, h]

/-- C1: on a non-empty record set of n records `generateCSV` succeeds and returns
the bytes of n+1 written rows: a header row in which every key of the first
record occurs exactly once and no other key occurs, then one row per record in
input order, with as many fields as there are headers; the field under a
header is the `%v` text of the record's value at that key, or empty when the
record lacks the key. -/
theorem generateCSV_rows (ρ : MapRange) (hρ : ρ.Valid) (data : List Record) (hne : data ≠ []) :
    ∃ (headers : List String) (rows : List (List String)),
      generateCSV ρ data = .ok (utf8 (writeRecords (headers :: rows))) ∧
      (headers :: rows).length = data.length + 1 ∧
      (∀ key : String, headers.count key =
        if ((data.head hne).lookup key).isSome then 1 else 0) ∧
      (∀ (i : Nat) (record : Record), data[i]? = some record →
        ∃ row : List String, rows[i]? = some row ∧ row.length = headers.length ∧
          ∀ (j : Nat) (key : String), headers[j]? = some key →
            row[j]? = some (match record.lookup key with
              | some value => sprintV value
              | none => "")) := by
  obtain ⟨first, rest, rfl⟩ := List.exists_cons_of_ne_nil hne
  refine ⟨ρ 0 first, (first :: rest).map (recordValues (ρ 0 first)), generateCSV_cons ρ first rest,
    by simp, ?_, ?_⟩
  · intro key
    rw [(hρ 0 first).count_eq]
    simp only [List.head_cons, Record.lookup, Record.keys]
    by_cases hk : key ∈ keysOf first
    · simp [(lookupKey_isSome_iff key first).mpr hk,
        List.count_eq_one_of_mem (keysOf_nodup first) hk]
    · have : (lookupKey key first).isSome = false := by
        rw [← Bool.not_eq_true, lookupKey_isSome_iff]; exact hk
      simp [this, List.count_eq_zero_of_not_mem hk]
  · intro i record hi
    refine ⟨recordValues (ρ 0 first) record, by rw [List.getElem?_map, hi]; rfl,
      by simp [recordValues], ?_⟩
    intro j key hj
    exact recordValues_getElem? _ _ _ _ hj

/-- Instance of `generateCSV_rows` on two records with different keys. -/
theorem generateCSV_rows_witness :
    MapRange.Valid rangeKeys ∧
    ([[("a", Value.number "1"), ("b", Value.string "x")], [("b", Value.null), ("c", Value.bool true)]] : List Record) ≠ [] ∧
    ∃ (headers : List String) (rows : List (List String)),
      generateCSV rangeKeys [[("a", Value.number "1"), ("b", Value.string "x")], [("b", Value.null), ("c", Value.bool true)]]
        = .ok (utf8 (writeRecords (headers :: rows))) ∧
      (headers :: rows).length = 2 + 1 :=
  ⟨rangeKeys_valid, List.cons_ne_nil _ _,
    (generateCSV_rows rangeKeys rangeKeys_valid
      [[("a", Value.number "1"), ("b", Value.string "x")], [("b", Value.null), ("c", Value.bool true)]]
      (List.cons_ne_nil _ _)).imp fun _ h => h.imp fun _ h => ⟨h.1, h.2.1⟩⟩

theorem rangeMixed_valid : MapRange.Valid rangeMixed := by
  intro n m
  unfold rangeMixed
  split
  · exact List.Perm.refl _
  · exact List.reverse_perm _

theorem rangeReversed_valid : MapRange.Valid rangeReversed := fun _ _ => List.reverse_perm _

/-- C3: on the empty record set `generateCSV` returns the error "no data provided"
and no bytes, while `generateXLSX` builds a workbook of exactly one sheet with
zero rows and returns what the library writes for it, without an error
(the library writes any workbook that has a sheet). -/
theorem empty_record_set (write : File → Except String Bytes) (ρ : MapRange)
    (hw : ∀ f : File, f.Sheets ≠ [] → ∃ bytes : Bytes, write f = .ok bytes) :
    generateCSV ρ [] = .error "no data provided" ∧
    xlsxWorkbook ρ [] = .ok ⟨[⟨"Sheet1", []⟩]⟩ ∧
    ∃ bytes : Bytes, generateXLSX write ρ [] = .ok bytes ∧ write ⟨[⟨"Sheet1", []⟩]⟩ = .ok bytes := by
  have hwb : xlsxWorkbook ρ [] = .ok ⟨[⟨"Sheet1", []⟩]⟩ := rfl
  refine ⟨rfl, hwb, ?_⟩
  obtain ⟨bytes, hb⟩ := hw ⟨[⟨"Sheet1", []⟩]⟩ (by simp)
  exact ⟨bytes, by simp [generateXLSX, hwb, hb], hb⟩

/-- Instance of `empty_record_set` with the sample serialisation. -/
theorem empty_record_set_witness :
    (∀ f : File, f.Sheets ≠ [] → ∃ bytes : Bytes, sampleWrite f = .ok bytes) ∧
    generateCSV rangeKeys [] = .error "no data provided" ∧
    xlsxWorkbook rangeKeys [] = .ok ⟨[⟨"Sheet1", []⟩]⟩ ∧
    ∃ bytes : Bytes, generateXLSX sampleWrite rangeKeys [] = .ok bytes ∧
      sampleWrite ⟨[⟨"Sheet1", []⟩]⟩ = .ok bytes :=
  ⟨fun f hf => ⟨[80, 75, f.Sheets.length], by simp [sampleWrite, hf]⟩,
    empty_record_set sampleWrite rangeKeys
      (fun f hf => ⟨[80, 75, f.Sheets.length], by simp [sampleWrite, hf]⟩)⟩

/-- C4: a POST whose body decodes to a document request with `typeofDoc` other
than "csv" and "xlsx" is answered with status 400; neither encoder is called
and no file is written: no call is made at all and the file system is as
before. -/
theorem post_unsupported_type (env : Env) (fs : FS) (props : DocMakerProps) (fileParam : String)
    (hcsv : props.TypeofDoc ≠ "csv") (hxlsx : props.TypeofDoc ≠ "xlsx") :
    handleRequest env fs ⟨"POST", some props, fileParam⟩ =
      (httpError "Invalid document type" 400, fs, []) ∧
    (handleRequest env fs ⟨"POST", some props, fileParam⟩).1.Status = 400 ∧
    (handleRequest env fs ⟨"POST", some props, fileParam⟩).2.1.files = fs.files ∧
    (handleRequest env fs ⟨"POST", some props, fileParam⟩).2.2 = [] := by
  have h : handleRequest env fs ⟨"POST", some props, fileParam⟩ =
      (httpError "Invalid document type" 400, fs, []) := by
    simp [handleRequest, hcsv, hxlsx]
  rw [h]
  exact ⟨rfl, rfl, rfl, rfl⟩

/-- Instance of `post_unsupported_type` on a request without `typeofDoc`. -/
theorem post_unsupported_type_witness :
    ("" : String) ≠ "csv" ∧ ("" : String) ≠ "xlsx" ∧
    (handleRequest sampleEnv sampleFS ⟨"POST", some ⟨[[("a", Value.string "x")]], ""⟩, ""⟩).1.Status = 400 ∧
    (handleRequest sampleEnv sampleFS ⟨"POST", some ⟨[[("a", Value.string "x")]], ""⟩, ""⟩).2.2 = [] :=
  ⟨by decide, by decide,
    (post_unsupported_type sampleEnv sampleFS ⟨[[("a", Value.string "x")]], ""⟩ ""
      (by decide) (by decide)).2.1,
    (post_unsupported_type sampleEnv sampleFS ⟨[[("a", Value.string "x")]], ""⟩ ""
      (by decide) (by decide)).2.2.2⟩

/-- C10: in the output of `generateCSV` on a non-empty record set, under every
header, a record that maps the header key to null has the field `<nil>` and a
record without the key has the empty field; the writer emits both as they
are, `<nil>` unquoted and nothing at all, so the two differ. -/
theorem generateCSV_null_vs_missing (ρ : MapRange) (data : List Record) (hne : data ≠ []) :
    ∃ (headers : List String) (rows : List (List String)),
      generateCSV ρ data = .ok (utf8 (writeRecords (headers :: rows))) ∧
      headers = collectHeaders ρ (data.head hne) ∧
      (∀ (i : Nat) (record : Record) (j : Nat) (key : String),
        data[i]? = some record → headers[j]? = some key →
        ∃ row : List String, rows[i]? = some row ∧
          (record.lookup key = some Value.null → row[j]? = some "<nil>") ∧
          (record.lookup key = none → row[j]? = some "")) ∧
      writeField "<nil>".data = ['<', 'n', 'i', 'l', '>'] ∧
      writeField "".data = [] := by
  obtain ⟨first, rest, rfl⟩ := List.exists_cons_of_ne_nil hne
  refine ⟨ρ 0 first, (first :: rest).map (recordValues (ρ 0 first)), generateCSV_cons ρ first rest,
    (collectHeaders_eq ρ first).symm, ?_, by decide, by decide⟩
  intro i record j key hi hj
  refine ⟨recordValues (ρ 0 first) record, by rw [List.getElem?_map, hi]; rfl, ?_, ?_⟩
  · intro hnull
    rw [recordValues_getElem? _ _ _ _ hj, hnull]
    rfl
  · intro hnone
    rw [recordValues_getElem? _ _ _ _ hj, hnone]

/-- Instance of `generateCSV_null_vs_missing`: a null under `a`, then a record without `a`. -/
theorem generateCSV_null_vs_missing_witness :
    ([[("a", Value.null)], []] : List Record) ≠ [] ∧
    generateCSV rangeKeys [[("a", Value.null)], []] = .ok (bytesOf "a\n<nil>\n\n") ∧
    ∃ (headers : List String) (rows : List (List String)),
      generateCSV rangeKeys [[("a", Value.null)], []] = .ok (utf8 (writeRecords (headers :: rows))) ∧
      headers = collectHeaders rangeKeys [("a", Value.null)] :=
  ⟨List.cons_ne_nil _ _, by decide,
    (generateCSV_null_vs_missing rangeKeys [[("a", Value.null)], []] (List.cons_ne_nil _ _)).imp
      fun _ h => h.imp fun _ h => ⟨h.1, h.2.1⟩⟩

/-! ## `generateXLSX` -/

theorem foldl_addCell (f : String → String) (keys : List String) (row : Row) :
    keys.foldl (fun row key => row.AddCell (f key)) row = ⟨row.Cells ++ keys.map (fun k => ⟨f k⟩)⟩ := by
  induction keys generalizing row with
  | nil => simp
  | cons k ks ih =>
      rw [List.foldl_cons, ih]
      simp [Row.AddCell]

theorem xlsxHeaderRow_eq (ρ : MapRange) (first : Record) :
    xlsxHeaderRow ρ first = ⟨(ρ 0 first).map (fun k => ⟨k⟩)⟩ := by
  have h := foldl_addCell (fun k => k) (ρ 0 first) ⟨[]⟩
  simpa [xlsxHeaderRow] using h

theorem xlsxDataRow_eq (ρ : MapRange) (i : Nat) (record : Record) :
    xlsxDataRow ρ i record = ⟨(ρ (i + 1) record).map (fun k => ⟨sprintV (record.index k)⟩)⟩ := by
  have h := foldl_addCell (fun k => sprintV (record.index k)) (ρ (i + 1) record) ⟨[]⟩
  simpa [xlsxDataRow, getKeys_eq] using h

theorem xlsxAddRows_eq (ρ : MapRange) (name : String) (data : List Record) (i : Nat)
    (rows : List Row) :
    xlsxAddRows ρ i data ⟨[⟨name, rows⟩]⟩ = ⟨[⟨name, rows ++ xlsxDataRows ρ i data⟩]⟩ := by
  induction data generalizing i rows with
  | nil => simp [xlsxAddRows, xlsxDataRows]
  | cons r rs ih =>
      simp only [xlsxAddRows, xlsxDataRows]
      have : (File.AddRow ⟨[⟨name, rows⟩]⟩ (xlsxDataRow ρ i r)) = ⟨[⟨name, rows ++ [xlsxDataRow ρ i r]⟩]⟩ := rfl
      rw [this, ih]
      simp

theorem xlsxWorkbook_cons (ρ : MapRange) (first : Record) (rest : List Record) :
    xlsxWorkbook ρ (first :: rest) =
      .ok ⟨[⟨"Sheet1", xlsxHeaderRow ρ first :: xlsxDataRows ρ 0 (first :: rest)⟩]⟩ := by
  have h0 : NewFile.AddSheet "Sheet1" = .ok ⟨[⟨"Sheet1", []⟩]⟩ := rfl
  have h1 : (File.AddRow ⟨[⟨"Sheet1", []⟩]⟩ (xlsxHeaderRow ρ first)) =
      ⟨[⟨"Sheet1", [xlsxHeaderRow ρ first]⟩]⟩ := rfl
  simp only [xlsxWorkbook, h0, h1, xlsxAddRows_eq]
  simp

theorem xlsxDataRows_length (ρ : MapRange) (i : Nat) (data : List Record) :
    (xlsxDataRows ρ i data).length = data.length := by
  induction data generalizing i with
  | nil => rfl
  | cons r rs ih => simp [xlsxDataRows, ih]

theorem xlsxDataRows_getElem? (ρ : MapRange) (i j : Nat) (data : List Record) :
    (xlsxDataRows ρ i data)[j]? = (data[j]?).map (xlsxDataRow ρ (i + j)) := by
  induction data generalizing i j with
  | nil => simp [xlsxDataRows]
  | cons r rs ih =>
      cases j with
      | zero => simp [xlsxDataRows]
      | succ j =>
          simp only [xlsxDataRows, List.getElem?_cons_succ, ih]
          have : i + 1 + j = i + (j + 1) := by omega
          rw [this]

/-- C7 (what the code does): on the record set `[{"a":"x"}, {"a":"y","b":"z"}]` the
sheet built by `generateXLSX` has a header row of one cell and a second data
row of two cells, the second one for the key `b` that only the later record
has; and on `[{"a":"x","b":"y"}]`, when `getKeys` enumerates the record in
another order than the header loop did, the data row holds `y` under the
header `a` and `x` under the header `b`. -/
theorem generateXLSX_rows_follow_own_keys :
    xlsxWorkbook rangeKeys
        [[("a", Value.string "x")], [("a", Value.string "y"), ("b", Value.string "z")]] =
      .ok ⟨[⟨"Sheet1", [⟨[⟨"a"⟩]⟩, ⟨[⟨"x"⟩]⟩, ⟨[⟨"y"⟩, ⟨"z"⟩]⟩]⟩]⟩ ∧
    xlsxWorkbook rangeMixed [[("a", Value.string "x"), ("b", Value.string "y")]] =
      .ok ⟨[⟨"Sheet1", [⟨[⟨"a"⟩, ⟨"b"⟩]⟩, ⟨[⟨"y"⟩, ⟨"x"⟩]⟩]⟩]⟩ := by
  constructor <;> decide

/-! ## Two runs on the same input -/

theorem perm_eq_of_length_le_one {l1 l2 l : List String} (h1 : l1.Perm l) (h2 : l2.Perm l)
    (hl : l.length ≤ 1) : l1 = l2 := by
  match l, hl with
  | [], _ => rw [List.perm_nil.mp h1, List.perm_nil.mp h2]
  | [a], _ => rw [List.perm_singleton.mp h1, List.perm_singleton.mp h2]

theorem zip_recordValues (headers : List String) (record : Record) :
    headers.zip (recordValues headers record) =
      headers.map (fun key => (key, match record.lookup key with
        | some value => sprintV value
        | none => "")) := by
  induction headers with
  | nil => rfl
  | cons k ks ih =>
      simp only [recordValues, List.map_cons, List.zip_cons_cons] at ih ⊢
      rw [ih]

theorem xlsxDataRows_congr (ρ1 ρ2 : MapRange) (h1 : ρ1.Valid) (h2 : ρ2.Valid) (i : Nat)
    (data : List Record) (hk : ∀ record ∈ data, record.keys.length ≤ 1) :
    xlsxDataRows ρ1 i data = xlsxDataRows ρ2 i data := by
  induction data generalizing i with
  | nil => rfl
  | cons r rs ih =>
      simp only [xlsxDataRows, xlsxDataRow_eq]
      rw [ih (i + 1) (fun record hr => hk record (List.mem_cons_of_mem _ hr)),
        perm_eq_of_length_le_one (h1 (i + 1) r) (h2 (i + 1) r) (hk r (List.mem_cons_self _ _))]

/-- C9 (counterexample): on the record set `[{"a":"x","b":"y"}]` a run that
enumerates the keys as `a, b` returns the bytes of `a,b\nx,y\n` and a run
that enumerates them as `b, a` returns the bytes of `b,a\ny,x\n`; the sheets
built by `generateXLSX` in the two runs differ in the same way. -/
theorem runs_differ_with_enumeration :
    MapRange.Valid rangeKeys ∧ MapRange.Valid rangeReversed ∧
    generateCSV rangeKeys [[("a", Value.string "x"), ("b", Value.string "y")]] =
      .ok (bytesOf "a,b\nx,y\n") ∧
    generateCSV rangeReversed [[("a", Value.string "x"), ("b", Value.string "y")]] =
      .ok (bytesOf "b,a\ny,x\n") ∧
    generateCSV rangeKeys [[("a", Value.string "x"), ("b", Value.string "y")]] ≠
      generateCSV rangeReversed [[("a", Value.string "x"), ("b", Value.string "y")]] ∧
    xlsxWorkbook rangeKeys [[("a", Value.string "x"), ("b", Value.string "y")]] ≠
      xlsxWorkbook rangeReversed [[("a", Value.string "x"), ("b", Value.string "y")]] :=
  ⟨rangeKeys_valid, rangeReversed_valid, by decide, by decide, by decide, by decide⟩

/-- C9 (amended): two runs of `generateCSV` on the same non-empty record set
return the bytes of equally many rows whose header rows list the same keys
and in which every row pairs each header key with the same field, the
columns possibly in another order; the bytes are identical when the first
record has at most one key, and on the empty record set both runs fail
alike.  Two runs of `generateXLSX` build equally many rows, each row holding
the same cells up to their order, and the same workbook when no record has
more than one key. -/
theorem runs_agree_up_to_column_order (ρ1 ρ2 : MapRange) (h1 : ρ1.Valid) (h2 : ρ2.Valid)
    (data : List Record) :
    (∀ hne : data ≠ [], ∃ (hd1 hd2 : List String) (rows1 rows2 : List (List String)),
      generateCSV ρ1 data = .ok (utf8 (writeRecords (hd1 :: rows1))) ∧
      generateCSV ρ2 data = .ok (utf8 (writeRecords (hd2 :: rows2))) ∧
      hd1.Perm (data.head hne).keys ∧ hd2.Perm (data.head hne).keys ∧
      rows1.length = data.length ∧ rows2.length = data.length ∧
      ∀ (i : Nat) (row1 row2 : List String), rows1[i]? = some row1 → rows2[i]? = some row2 →
        (hd1.zip row1).Perm (hd2.zip row2)) ∧
    ((∀ first ∈ data.head?, first.keys.length ≤ 1) →
      generateCSV ρ1 data = generateCSV ρ2 data) ∧
    (∃ rows1 rows2 : List Row,
      xlsxWorkbook ρ1 data = .ok ⟨[⟨"Sheet1", rows1⟩]⟩ ∧
      xlsxWorkbook ρ2 data = .ok ⟨[⟨"Sheet1", rows2⟩]⟩ ∧
      rows1.length = rows2.length ∧
      ∀ (i : Nat) (row1 row2 : Row), rows1[i]? = some row1 → rows2[i]? = some row2 →
        row1.Cells.Perm row2.Cells) ∧
    ((∀ record ∈ data, record.keys.length ≤ 1) →
      ∀ write : File → Except String Bytes,
        generateXLSX write ρ1 data = generateXLSX write ρ2 data) := by
  refine ⟨?_, ?_, ?_, ?_⟩
  · intro hne
    obtain ⟨first, rest, rfl⟩ := List.exists_cons_of_ne_nil hne
    refine ⟨ρ1 0 first, ρ2 0 first, (first :: rest).map (recordValues (ρ1 0 first)),
      (first :: rest).map (recordValues (ρ2 0 first)), generateCSV_cons ρ1 first rest,
      generateCSV_cons ρ2 first rest, h1 0 first, h2 0 first, by simp, by simp, ?_⟩
    intro i row1 row2 hr1 hr2
    rw [List.getElem?_map] at hr1 hr2
    cases hrec : (first :: rest)[i]? with
    | none => rw [hrec] at hr1; simp at hr1
    | some record =>
        rw [hrec] at hr1 hr2
        simp only [Option.map_some', Option.some.injEq] at hr1 hr2
        rw [← hr1, ← hr2, zip_recordValues, zip_recordValues]
        exact ((h1 0 first).trans (h2 0 first).symm).map _
  · intro hk
    cases data with
    | nil => rfl
    | cons first rest =>
        have hle : first.keys.length ≤ 1 := hk first (by simp)
        rw [generateCSV_cons, generateCSV_cons,
          perm_eq_of_length_le_one (h1 0 first) (h2 0 first) hle]
  · cases data with
    | nil => exact ⟨[], [], rfl, rfl, rfl, by simp⟩
    | cons first rest =>
        refine ⟨_, _, xlsxWorkbook_cons ρ1 first rest, xlsxWorkbook_cons ρ2 first rest,
          by simp [xlsxDataRows_length], ?_⟩
        intro i row1 row2 hr1 hr2
        cases i with
        | zero =>
            simp only [List.getElem?_cons_zero, Option.some.injEq] at hr1 hr2
            rw [← hr1, ← hr2, xlsxHeaderRow_eq, xlsxHeaderRow_eq]
            exact ((h1 0 first).trans (h2 0 first).symm).map _
        | succ i =>
            simp only [List.getElem?_cons_succ, xlsxDataRows_getElem?] at hr1 hr2
            cases hrec : (first :: rest)[i]? with
            | none => rw [hrec] at hr1; simp at hr1
            | some record =>
                rw [hrec] at hr1 hr2
                simp only [Option.map_some', Option.some.injEq] at hr1 hr2
                rw [← hr1, ← hr2, xlsxDataRow_eq, xlsxDataRow_eq]
                exact ((h1 _ record).trans (h2 _ record).symm).map _
  · intro hk write
    cases data with
    | nil => rfl
    | cons first rest =>
        have hle : first.keys.length ≤ 1 := hk first (List.mem_cons_self _ _)
        simp only [generateXLSX, xlsxWorkbook_cons, xlsxHeaderRow_eq,
          perm_eq_of_length_le_one (h1 0 first) (h2 0 first) hle,
          xlsxDataRows_congr ρ1 ρ2 h1 h2 0 (first :: rest) hk]

/-- Instance of `runs_agree_up_to_column_order` on records of one key each. -/
theorem runs_agree_up_to_column_order_witness :
    MapRange.Valid rangeKeys ∧ MapRange.Valid rangeReversed ∧
    generateCSV rangeKeys [[("a", Value.string "x")], [("b", Value.null)]] =
      generateCSV rangeReversed [[("a", Value.string "x")], [("b", Value.null)]] :=
  ⟨rangeKeys_valid, rangeReversed_valid,
    (runs_agree_up_to_column_order rangeKeys rangeReversed rangeKeys_valid rangeReversed_valid
      [[("a", Value.string "x")], [("b", Value.null)]]).2.1
      (by intro first hf; simp at hf; subst hf; decide)⟩

/-! ## Paths -/

theorem splitSlash_ne_nil (l : List Char) : splitSlash l ≠ [] := by
  induction l with
  | nil => simp [splitSlash]
  | cons c cs ih =>
      unfold splitSlash
      split
      · simp
      · split <;> simp

theorem splitSlash_no_slash (a : List Char) (ha : '/' ∉ a) : splitSlash a = [a] := by
  induction a with
  | nil => rfl
  | cons c cs ih =>
      have hc : c ≠ '/' := fun h => ha (by simp [h])
      have hcs : '/' ∉ cs := fun h => ha (List.mem_cons_of_mem _ h)
      simp [splitSlash, hc, ih hcs]

theorem splitSlash_append_slash (a b : List Char) (ha : '/' ∉ a) :
    splitSlash (a ++ '/' :: b) = a :: splitSlash b := by
  induction a with
  | nil => simp [splitSlash]
  | cons c cs ih =>
      have hc : c ≠ '/' := fun h => ha (by simp [h])
      have hcs : '/' ∉ cs := fun h => ha (List.mem_cons_of_mem _ h)
      simp [splitSlash, hc, ih hcs]

theorem cleanStep_keeps (elems : List (List Char)) (h : ∀ e ∈ elems, e ≠ ['.', '.'])
    (out : List (List Char)) :
    ∃ pre : List (List Char), elems.foldl (cleanStep true) out = pre ++ out := by
  induction elems generalizing out with
  | nil => exact ⟨[], rfl⟩
  | cons e es ih =>
      have he : e ≠ ['.', '.'] := h e (List.mem_cons_self _ _)
      have hes : ∀ x ∈ es, x ≠ ['.', '.'] := fun x hx => h x (List.mem_cons_of_mem _ hx)
      rw [List.foldl_cons]
      by_cases hskip : e = [] ∨ e = ['.']
      · have : cleanStep true out e = out := by simp [cleanStep, hskip]
        rw [this]
        exact ih hes out
      · have : cleanStep true out e = e :: out := by simp [cleanStep, hskip, he]
        rw [this]
        obtain ⟨pre, hpre⟩ := ih hes (e :: out)
        exact ⟨pre ++ [e], by simp [hpre]⟩

theorem tmp_join_data (name : String) :
    ("/tmp" ++ "/" ++ name).data = '/' :: 't' :: 'm' :: 'p' :: '/' :: name.data := by
  simp [String.data_append]

theorem insideTmp_of_join (rest : List (List Char)) :
    insideTmp (String.mk ('/' :: joinSlash (['t', 'm', 'p'] :: rest))) = true := by
  cases rest with
  | nil => decide
  | cons e es => simp [insideTmp, joinSlash, List.isPrefixOf]

/-- A name without a `..` element stays below `/tmp` when joined to it. -/
theorem filepathJoin_inside (name : String) (hne : name ≠ "")
    (h : ∀ e ∈ splitSlash name.data, e ≠ ['.', '.']) :
    insideTmp (filepathJoin "/tmp" name) = true := by
  obtain ⟨pre, hpre⟩ := cleanStep_keeps (splitSlash name.data) h [['t', 'm', 'p']]
  have hsplit : splitSlash ('/' :: 't' :: 'm' :: 'p' :: '/' :: name.data) =
      [] :: ['t', 'm', 'p'] :: splitSlash name.data := by
    have h1 := splitSlash_append_slash ['t', 'm', 'p'] name.data (by decide)
    have h2 := splitSlash_append_slash [] (['t', 'm', 'p'] ++ '/' :: name.data) (by decide)
    simp only [List.nil_append, List.cons_append] at h1 h2
    rw [h2, h1]
  have hfold : (splitSlash ('/' :: 't' :: 'm' :: 'p' :: '/' :: name.data)).foldl (cleanStep true) []
      = pre ++ [['t', 'm', 'p']] := by
    rw [hsplit, List.foldl_cons, List.foldl_cons, ← hpre]
    rfl
  have hclean : filepathJoin "/tmp" name =
      String.mk ('/' :: joinSlash (['t', 'm', 'p'] :: pre.reverse)) := by
    simp only [filepathJoin, hne, if_false, filepathClean, tmp_join_data]
    simp [hfold]
  rw [hclean]
  exact insideTmp_of_join _

/-- C5 (counterexample): the GET request with `file=../etc/passwd`, a name that
contains `../`, is answered with status 200 and the content of `/etc/passwd`;
the one path read is `/etc/passwd`, which is not inside `/tmp`. -/
theorem get_dotdot_leaves_root :
    hasInfix ['.', '.', '/'] "../etc/passwd".data = true ∧
    (handleRequest sampleEnv sampleFS ⟨"GET", none, "../etc/passwd"⟩).1.Status = 200 ∧
    (handleRequest sampleEnv sampleFS ⟨"GET", none, "../etc/passwd"⟩).1.Body =
      bytesOf "root:x:0:0" ∧
    (handleRequest sampleEnv sampleFS ⟨"GET", none, "../etc/passwd"⟩).2.2 =
      [Event.readFile "/etc/passwd"] ∧
    insideTmp "/etc/passwd" = false :=
  ⟨by decide, by decide, by decide, by decide, by decide⟩

/-- C5 (amended): a GET request whose `file` parameter is not empty makes
exactly one read, of the parameter joined to `/tmp` and cleaned, and is
answered 200 with the bytes of that file when it exists and 404 when it does
not, whatever the parameter contains; the path read is `/tmp` or lies below
it whenever no element of the parameter is `..`. -/
theorem get_reads_joined_path (env : Env) (fs : FS) (fileParam : String) (hne : fileParam ≠ "") :
    handleRequest env fs ⟨"GET", none, fileParam⟩ =
      ((match fs.readFile (filepathJoin "/tmp" fileParam) with
        | .ok fileBytes =>
            { Status := 200
              Header := [("Content-Type", "application/octet-stream"),
                         ("Content-Disposition", "attachment; filename=" ++ fileParam)]
              Body := fileBytes }
        | .error _ => httpError "File not found" 404),
       fs, [Event.readFile (filepathJoin "/tmp" fileParam)]) ∧
    ((∀ e ∈ splitSlash fileParam.data, e ≠ ['.', '.']) →
      insideTmp (filepathJoin "/tmp" fileParam) = true) := by
  refine ⟨?_, filepathJoin_inside fileParam hne⟩
  simp only [handleRequest, hne, if_false]
  cases fs.readFile (filepathJoin "/tmp" fileParam) <;> simp

/-- Instance of `get_reads_joined_path` on a name without a `..` element. -/
theorem get_reads_joined_path_witness :
    ("a/./b.csv" : String) ≠ "" ∧
    (handleRequest sampleEnv sampleFS ⟨"GET", none, "a/./b.csv"⟩).1.Status = 404 ∧
    (handleRequest sampleEnv sampleFS ⟨"GET", none, "a/./b.csv"⟩).2.2 =
      [Event.readFile "/tmp/a/b.csv"] ∧
    insideTmp (filepathJoin "/tmp" "a/./b.csv") = true :=
  ⟨by decide, by decide, by decide,
    (get_reads_joined_path sampleEnv sampleFS "a/./b.csv" (by decide)).2 (by decide)⟩

/-! ## Save, then load -/

theorem digitChar_ne_slash : ∀ d : Nat, d < 10 → Nat.digitChar d ≠ '/' := by
  decide

theorem toDigitsCore_no_slash (fuel n : Nat) (acc : List Char) (hacc : '/' ∉ acc) :
    '/' ∉ Nat.toDigitsCore 10 fuel n acc := by
  induction fuel generalizing n acc with
  | zero => simpa [Nat.toDigitsCore] using hacc
  | succ fuel ih =>
      have hcons : '/' ∉ Nat.digitChar (n % 10) :: acc := by
        intro h
        rcases List.mem_cons.mp h with h | h
        · exact digitChar_ne_slash _ (Nat.mod_lt _ (by decide)) h.symm
        · exact hacc h
      simp only [Nat.toDigitsCore]
      split
      · exact hcons
      · exact ih _ _ hcons

theorem repr_no_slash (n : Nat) : '/' ∉ (Nat.repr n).data := by
  simp only [Nat.repr, Nat.toDigits, List.asString]
  exact toDigitsCore_no_slash _ _ _ (by simp)

theorem sprintD_no_slash (t : Int) : '/' ∉ (sprintD t).data := by
  cases t with
  | ofNat n => exact repr_no_slash n
  | negSucc n =>
      simp only [sprintD, String.data_append, List.mem_append, not_or]
      exact ⟨by decide, repr_no_slash _⟩

/-- Name of the file that `makeFile` writes. -/
theorem fileName_data (now : Int) (ext : String) :
    ("file_" ++ sprintD now ++ "." ++ ext).data =
      'f' :: 'i' :: 'l' :: 'e' :: '_' :: ((sprintD now).data ++ '.' :: ext.data) := by
  simp [String.data_append]

theorem fileName_no_slash (now : Int) (ext : String) (hext : ext = "csv" ∨ ext = "xlsx") :
    '/' ∉ ("file_" ++ sprintD now ++ "." ++ ext).data := by
  have hd := sprintD_no_slash now
  have he : '/' ∉ ext.data := by rcases hext with h | h <;> subst h <;> decide
  rw [fileName_data]
  simp only [List.mem_cons, List.mem_append, not_or]
  exact ⟨by decide, by decide, by decide, by decide, by decide, hd, by decide, he⟩

theorem filepathJoin_plain (name : String) (c : Char) (cs : List Char) (hdata : name.data = c :: cs)
    (hc : c ≠ '.') (hslash : '/' ∉ name.data) :
    filepathJoin "/tmp" name = "/tmp/" ++ name := by
  have hne : name ≠ "" := by
    intro h; rw [h] at hdata; exact absurd hdata (by simp)
  have hsplit : splitSlash ('/' :: 't' :: 'm' :: 'p' :: '/' :: name.data) =
      [[], ['t', 'm', 'p'], name.data] := by
    have h1 := splitSlash_append_slash ['t', 'm', 'p'] name.data (by decide)
    have h2 := splitSlash_append_slash [] (['t', 'm', 'p'] ++ '/' :: name.data) (by decide)
    simp only [List.nil_append, List.cons_append] at h1 h2
    rw [h2, h1, splitSlash_no_slash _ hslash]
  have hfold : (splitSlash ('/' :: 't' :: 'm' :: 'p' :: '/' :: name.data)).foldl (cleanStep true) []
      = [name.data, ['t', 'm', 'p']] := by
    rw [hsplit]
    simp [cleanStep, hdata, hc]
  apply String.ext
  simp only [filepathJoin, hne, if_false, filepathClean, tmp_join_data]
  simp [hfold, joinSlash, String.data_append]

theorem filepathBase_plain (name : String) (hne : name.data ≠ []) (hslash : '/' ∉ name.data) :
    filepathBase ("/tmp/" ++ name) = name := by
  have hdata : ("/tmp/" ++ name).data = '/' :: 't' :: 'm' :: 'p' :: '/' :: name.data := by
    simp [String.data_append]
  have hnonempty : ("/tmp/" ++ name) ≠ "" := by
    intro h
    have := congrArg String.data h
    rw [hdata] at this
    simp at this
  have htrim : (("/tmp/" ++ name).data.reverse.dropWhile (fun c => c = '/')).reverse =
      '/' :: 't' :: 'm' :: 'p' :: '/' :: name.data := by
    rw [hdata]
    obtain ⟨l, a, hl⟩ : ∃ l a, name.data = l ++ [a] :=
      ⟨name.data.dropLast, name.data.getLast hne, (List.dropLast_append_getLast hne).symm⟩
    have ha : a ≠ '/' := fun h => hslash (by rw [hl]; simp [h])
    rw [hl]
    simp [List.dropWhile, ha]
  have hsplit : splitSlash ('/' :: 't' :: 'm' :: 'p' :: '/' :: name.data) =
      [[], ['t', 'm', 'p'], name.data] := by
    have h1 := splitSlash_append_slash ['t', 'm', 'p'] name.data (by decide)
    have h2 := splitSlash_append_slash [] (['t', 'm', 'p'] ++ '/' :: name.data) (by decide)
    simp only [List.nil_append, List.cons_append] at h1 h2
    rw [h2, h1, splitSlash_no_slash _ hslash]
  simp only [filepathBase, hnonempty, if_false, htrim, hsplit]
  simp

/-- C6: whenever `makeFile` returns a path for bytes `b` and an extension `csv` or
`xlsx` at clock value `now`, the path is `/tmp/file_<now>.<ext>`, and the GET
request handled next with `file` set to the base name of that path is
answered with status 200 and a body equal to `b`, after reading that path. -/
theorem save_then_load (env : Env) (now : Int) (fs fs1 : FS) (b : Bytes) (ext path : String)
    (hext : ext = "csv" ∨ ext = "xlsx") (hmk : makeFile now fs b ext = .ok (path, fs1)) :
    path = "/tmp/file_" ++ sprintD now ++ "." ++ ext ∧
    filepathBase path = "file_" ++ sprintD now ++ "." ++ ext ∧
    handleRequest env fs1 ⟨"GET", none, filepathBase path⟩ =
      ({ Status := 200
         Header := [("Content-Type", "application/octet-stream"),
                    ("Content-Disposition", "attachment; filename=" ++ filepathBase path)]
         Body := b },
       fs1, [Event.readFile path]) := by
  have hslash := fileName_no_slash now ext hext
  have hdata := fileName_data now ext
  have hjoin := filepathJoin_plain _ _ _ hdata (by decide) hslash
  have hbase := filepathBase_plain ("file_" ++ sprintD now ++ "." ++ ext)
    (by rw [hdata]; simp) hslash
  have hname : ("file_" ++ sprintD now ++ "." ++ ext) ≠ "" := by
    intro h
    have := congrArg String.data h
    rw [hdata] at this
    simp at this
  simp only [makeFile, hjoin, FS.writeFile] at hmk
  by_cases hden : "/tmp/" ++ ("file_" ++ sprintD now ++ "." ++ ext) ∈ fs.denied
  · simp [hden] at hmk
  · simp only [hden, if_false, Except.ok.injEq, Prod.mk.injEq] at hmk
    obtain ⟨hp, hfs⟩ := hmk
    have hp2 : path = "/tmp/file_" ++ sprintD now ++ "." ++ ext := by
      rw [← hp]
      apply String.ext
      simp [String.data_append]
    have hread : fs1.readFile ("/tmp/" ++ ("file_" ++ sprintD now ++ "." ++ ext)) = .ok b := by
      rw [← hfs]; simp [FS.readFile, lookupKey]
    refine ⟨hp2, by rw [← hp, hbase], ?_⟩
    rw [← hp, hbase]
    simp [handleRequest, hname, hjoin, hread]

/-- Instance of `save_then_load`: a CSV file saved at clock value 1700000000. -/
theorem save_then_load_witness :
    (("csv" : String) = "csv" ∨ ("csv" : String) = "xlsx") ∧
    makeFile 1700000000 sampleFS (bytesOf "a\n1\n") "csv" =
      .ok ("/tmp/file_1700000000.csv",
        ⟨[("/tmp/file_1700000000.csv", bytesOf "a\n1\n"), ("/etc/passwd", bytesOf "root:x:0:0")], []⟩) ∧
    ("/tmp/file_1700000000.csv" : String) = "/tmp/file_" ++ sprintD 1700000000 ++ "." ++ "csv" ∧
    filepathBase "/tmp/file_1700000000.csv" = "file_" ++ sprintD 1700000000 ++ "." ++ "csv" ∧
    handleRequest sampleEnv
        ⟨[("/tmp/file_1700000000.csv", bytesOf "a\n1\n"), ("/etc/passwd", bytesOf "root:x:0:0")], []⟩
        ⟨"GET", none, filepathBase "/tmp/file_1700000000.csv"⟩ =
      ({ Status := 200
         Header := [("Content-Type", "application/octet-stream"),
                    ("Content-Disposition",
                      "attachment; filename=" ++ filepathBase "/tmp/file_1700000000.csv")]
         Body := bytesOf "a\n1\n" },
       ⟨[("/tmp/file_1700000000.csv", bytesOf "a\n1\n"), ("/etc/passwd", bytesOf "root:x:0:0")], []⟩,
       [Event.readFile "/tmp/file_1700000000.csv"]) :=
  ⟨Or.inl rfl, by decide,
    save_then_load sampleEnv 1700000000 sampleFS _ (bytesOf "a\n1\n") "csv" _ (Or.inl rfl)
      (by decide : makeFile 1700000000 sampleFS (bytesOf "a\n1\n") "csv" =
      .ok ("/tmp/file_1700000000.csv",
        ⟨[("/tmp/file_1700000000.csv", bytesOf "a\n1\n"), ("/etc/passwd", bytesOf "root:x:0:0")], []⟩))⟩

/-! ## Quoting -/

theorem writeFields_cons (f : String) (fs : List String) (t : List Char) :
    writeFields (f :: fs) ++ t =
      writeField f.data ++ (match fs with
        | [] => t
        | g :: gs => ',' :: (writeFields (g :: gs) ++ t)) := by
  cases fs with
  | nil => simp [writeFields]
  | cons g gs => simp [writeFields]

theorem writeFields_eq_intercalate (row : List String) :
    writeFields row = [','].intercalate (row.map (fun f => writeField f.data)) := by
  induction row with
  | nil => rfl
  | cons f fs ih =>
      cases fs with
      | nil => simp [writeFields, List.intercalate]
      | cons g gs =>
          have h := writeFields_cons f (g :: gs) []
          simp only [List.append_nil] at h
          rw [h, ih]
          simp [List.intercalate, List.intersperse]

theorem writeQuoted_eq_flatten (field : List Char) :
    writeQuoted field = (field.map (fun c => if c = '"' then ['"', '"'] else [c])).flatten := by
  induction field with
  | nil => rfl
  | cons c cs ih =>
      by_cases hc : c = '"'
      · simp [writeQuoted, hc, ih]
      · simp [writeQuoted, hc, ih]

theorem fieldNeedsQuotes_of_special (field : List Char) (c : Char) (hc : c ∈ field)
    (hs : isSpecial c = true) : fieldNeedsQuotes field = true := by
  have hne : field ≠ [] := List.ne_nil_of_mem hc
  have hany : field.any isSpecial = true := List.any_eq_true.mpr ⟨c, hc, hs⟩
  simp [fieldNeedsQuotes, hne, hany]

theorem not_special_of_unquoted (field : List Char) (h : fieldNeedsQuotes field = false) :
    ∀ c ∈ field, isSpecial c = false := by
  intro c hc
  by_contra hs
  rw [Bool.not_eq_false] at hs
  rw [fieldNeedsQuotes_of_special field c hc hs] at h
  exact absurd h (by simp)

/-- Two texts that start with an unquoted field up to a delimiter agree on the
field, the delimiter and the rest. -/
theorem unquoted_cancel (f1 f2 : List Char) (s1 s2 : Char) (t1 t2 : List Char)
    (h1 : ∀ c ∈ f1, isSpecial c = false) (h2 : ∀ c ∈ f2, isSpecial c = false)
    (hs1 : isSpecial s1 = true) (hs2 : isSpecial s2 = true)
    (h : f1 ++ s1 :: t1 = f2 ++ s2 :: t2) : f1 = f2 ∧ s1 = s2 ∧ t1 = t2 := by
  induction f1 generalizing f2 with
  | nil =>
      cases f2 with
      | nil => simpa using h
      | cons c cs =>
          simp only [List.nil_append, List.cons_append, List.cons.injEq] at h
          have := h2 c (List.mem_cons_self _ _)
          rw [← h.1, hs1] at this
          exact absurd this (by simp)
  | cons c cs ih =>
      cases f2 with
      | nil =>
          simp only [List.nil_append, List.cons_append, List.cons.injEq] at h
          have := h1 c (List.mem_cons_self _ _)
          rw [h.1, hs2] at this
          exact absurd this (by simp)
      | cons d ds =>
          simp only [List.cons_append, List.cons.injEq] at h
          obtain ⟨hf, hs, ht⟩ := ih ds (fun x hx => h1 x (List.mem_cons_of_mem _ hx))
            (fun x hx => h2 x (List.mem_cons_of_mem _ hx)) h.2
          exact ⟨by rw [h.1, hf], hs, ht⟩

/-- Two texts that continue a quoted field up to its closing quote agree on the
field and on what follows. -/
theorem quoted_cancel (f1 f2 : List Char) (s1 s2 : Char) (t1 t2 : List Char)
    (hs1 : s1 ≠ '"') (hs2 : s2 ≠ '"')
    (h : writeQuoted f1 ++ '"' :: s1 :: t1 = writeQuoted f2 ++ '"' :: s2 :: t2) :
    f1 = f2 ∧ s1 = s2 ∧ t1 = t2 := by
  induction f1 generalizing f2 with
  | nil =>
      cases f2 with
      | nil => simpa [writeQuoted] using h
      | cons d ds =>
          by_cases hd : d = '"'
          · simp [writeQuoted, hd] at h
            exact absurd h.1 hs1
          · simp [writeQuoted, hd] at h
            exact absurd h.1.symm hd
  | cons c cs ih =>
      cases f2 with
      | nil =>
          by_cases hc : c = '"'
          · simp [writeQuoted, hc] at h
            exact absurd h.1.symm hs2
          · simp [writeQuoted, hc] at h
      | cons d ds =>
          by_cases hc : c = '"' <;> by_cases hd : d = '"'
          · simp only [writeQuoted, hc, hd, if_true, List.cons_append, List.cons.injEq,
              true_and] at h
            obtain ⟨hf, hs, ht⟩ := ih ds h
            exact ⟨by rw [hc, hd, hf], hs, ht⟩
          · simp [writeQuoted, hc, hd] at h
            exact absurd h.1.symm hd
          · simp [writeQuoted, hc, hd] at h
          · simp only [writeQuoted, hc, hd, if_false, List.cons_append, List.cons.injEq] at h
            obtain ⟨hf, hs, ht⟩ := ih ds h.2
            exact ⟨by rw [h.1, hf], hs, ht⟩

/-- Two texts that start with a written field up to a delimiter agree on the
field, the delimiter and the rest. -/
theorem writeField_cancel (f1 f2 : List Char) (s1 s2 : Char) (t1 t2 : List Char)
    (hs1 : s1 = ',' ∨ s1 = '\n') (hs2 : s2 = ',' ∨ s2 = '\n')
    (h : writeField f1 ++ s1 :: t1 = writeField f2 ++ s2 :: t2) :
    f1 = f2 ∧ s1 = s2 ∧ t1 = t2 := by
  have hsp1 : isSpecial s1 = true := by rcases hs1 with h | h <;> subst h <;> decide
  have hsp2 : isSpecial s2 = true := by rcases hs2 with h | h <;> subst h <;> decide
  have hq1 : s1 ≠ '"' := by rcases hs1 with h | h <;> subst h <;> decide
  have hq2 : s2 ≠ '"' := by rcases hs2 with h | h <;> subst h <;> decide
  have hhead : ∀ (f : List Char) (s : Char) (t rest : List Char), fieldNeedsQuotes f = false →
      s ≠ '"' → f ++ s :: t ≠ '"' :: rest := by
    intro f s t rest hf hs heq
    cases f with
    | nil => simp at heq; exact hs heq.1
    | cons c cs =>
        simp only [List.cons_append, List.cons.injEq] at heq
        have := not_special_of_unquoted _ hf c (List.mem_cons_self _ _)
        rw [heq.1] at this
        exact absurd this (by decide)
  cases hn1 : fieldNeedsQuotes f1 <;> cases hn2 : fieldNeedsQuotes f2
  · simp only [writeField, hn1, hn2] at h
    exact unquoted_cancel f1 f2 s1 s2 t1 t2 (not_special_of_unquoted _ hn1)
      (not_special_of_unquoted _ hn2) hsp1 hsp2 h
  · simp only [writeField, hn1, hn2, if_true, List.cons_append] at h
    exact absurd h (hhead f1 s1 t1 _ hn1 hq1)
  · simp only [writeField, hn1, hn2, if_true, List.cons_append] at h
    exact absurd h.symm (hhead f2 s2 t2 _ hn2 hq2)
  · simp only [writeField, hn1, hn2, if_true, List.cons_append, List.append_assoc,
      List.cons.injEq, true_and, List.singleton_append] at h
    exact quoted_cancel f1 f2 s1 s2 t1 t2 hq1 hq2 h

/-- Two rows with equally many fields that are written to texts with a common
start are the same row, and the texts continue alike. -/
theorem writeRecord_cancel (r1 r2 : List String) (hlen : r1.length = r2.length)
    (t1 t2 : List Char) (h : writeRecord r1 ++ t1 = writeRecord r2 ++ t2) :
    r1 = r2 ∧ t1 = t2 := by
  induction r1 generalizing r2 with
  | nil =>
      cases r2 with
      | nil => simpa [writeRecord, writeFields] using h
      | cons g gs => simp at hlen
  | cons f fs ih =>
      cases r2 with
      | nil => simp at hlen
      | cons g gs =>
          simp only [List.length_cons, Nat.add_right_cancel_iff] at hlen
          have e1 : writeRecord (f :: fs) ++ t1 = writeFields (f :: fs) ++ ('\n' :: t1) := by
            simp [writeRecord]
          have e2 : writeRecord (g :: gs) ++ t2 = writeFields (g :: gs) ++ ('\n' :: t2) := by
            simp [writeRecord]
          rw [e1, e2, writeFields_cons, writeFields_cons] at h
          cases fs with
          | nil =>
              cases gs with
              | nil =>
                  simp only [List.singleton_append] at h
                  obtain ⟨hf, _, ht⟩ := writeField_cancel _ _ _ _ _ _ (Or.inr rfl) (Or.inr rfl) h
                  exact ⟨by rw [String.ext hf], ht⟩
              | cons g2 gs2 => simp at hlen
          | cons f2 fs2 =>
              cases gs with
              | nil => simp at hlen
              | cons g2 gs2 =>
                  obtain ⟨hf, _, ht⟩ := writeField_cancel _ _ _ _ _ _ (Or.inl rfl) (Or.inl rfl) h
                  have hrec := ih (g2 :: gs2) hlen (by simpa [writeRecord] using ht)
                  exact ⟨by rw [String.ext hf, hrec.1], hrec.2⟩

/-- C8: the output of `generateCSV` on a non-empty record set is the text of the
header row and of one row per record, each row being its fields as written,
joined by commas and ended by a line feed; every header or value that
contains a comma, a double quote, a carriage return or a line feed is written
as a double quote, the field with each double quote doubled, a double quote;
and the fields of a row can be told apart: a row of as many fields whose
written text starts another text in the same way is the same row. -/
theorem generateCSV_quoting (ρ : MapRange) (hρ : ρ.Valid) (data : List Record) (hne : data ≠ []) :
    ∃ (headers : List String) (rows : List (List String)),
      generateCSV ρ data = .ok (utf8 (writeRecords (headers :: rows))) ∧
      headers.Perm (data.head hne).keys ∧
      rows = data.map (recordValues headers) ∧
      (∀ row ∈ headers :: rows,
        writeRecord row = [','].intercalate (row.map (fun f => writeField f.data)) ++ ['\n'] ∧
        ∀ field ∈ row,
          (',' ∈ field.data ∨ '"' ∈ field.data ∨ '\r' ∈ field.data ∨ '\n' ∈ field.data) →
            writeField field.data = quotedForm field.data) ∧
      (∀ row1 ∈ headers :: rows, ∀ row2 : List String, row2.length = row1.length →
        ∀ t1 t2 : List Char, writeRecord row1 ++ t1 = writeRecord row2 ++ t2 →
          row1 = row2 ∧ t1 = t2) := by
  obtain ⟨first, rest, rfl⟩ := List.exists_cons_of_ne_nil hne
  refine ⟨ρ 0 first, (first :: rest).map (recordValues (ρ 0 first)), generateCSV_cons ρ first rest,
    hρ 0 first, rfl, ?_, ?_⟩
  · intro row _
    refine ⟨by rw [writeRecord, writeFields_eq_intercalate], ?_⟩
    intro field _ hspecial
    have hq : fieldNeedsQuotes field.data = true := by
      rcases hspecial with h | h | h | h
      · exact fieldNeedsQuotes_of_special _ _ h (by decide)
      · exact fieldNeedsQuotes_of_special _ _ h (by decide)
      · exact fieldNeedsQuotes_of_special _ _ h (by decide)
      · exact fieldNeedsQuotes_of_special _ _ h (by decide)
    simp [writeField, hq, quotedForm, writeQuoted_eq_flatten]
  · intro row1 _ row2 hlen t1 t2 h
    exact writeRecord_cancel row1 row2 hlen.symm t1 t2 h

/-- Instance of `generateCSV_quoting` on a key with a comma and a value with quotes and a line end. -/
theorem generateCSV_quoting_witness :
    MapRange.Valid rangeKeys ∧
    ([[("n,1", Value.string "say \"hi\"\r\n")]] : List Record) ≠ [] ∧
    generateCSV rangeKeys [[("n,1", Value.string "say \"hi\"\r\n")]] =
      .ok (bytesOf "\"n,1\"\n\"say \"\"hi\"\"\r\n\"\n") ∧
    ∃ (headers : List String) (rows : List (List String)),
      generateCSV rangeKeys [[("n,1", Value.string "say \"hi\"\r\n")]] =
        .ok (utf8 (writeRecords (headers :: rows))) ∧
      rows = [[("n,1", Value.string "say \"hi\"\r\n")]].map (recordValues headers) :=
  ⟨rangeKeys_valid, List.cons_ne_nil _ _, by decide,
    (generateCSV_quoting rangeKeys rangeKeys_valid [[("n,1", Value.string "say \"hi\"\r\n")]]
      (List.cons_ne_nil _ _)).imp fun _ h => h.imp fun _ h => ⟨h.1, h.2.2.1⟩⟩

/-! ## UTF-8 -/

theorem char_toNat_lt (c : Char) : c.toNat < 0x110000 := by
  have h := c.valid
  simp only [UInt32.isValidChar, Nat.isValidChar] at h
  simp only [Char.toNat]
  omega

theorem char_eq_of_toNat_eq {c d : Char} (h : c.toNat = d.toNat) : c = d := by
  rw [← Char.ofNat_toNat c, ← Char.ofNat_toNat d, h]

/-- A byte below 128 in the encoding of a code point is that code point. -/
theorem utf8EncodeChar_low (c : Char) (b : Nat) (hb : b ∈ utf8EncodeChar c) (hlow : b < 128) :
    c.toNat = b ∧ utf8EncodeChar c = [b] := by
  unfold utf8EncodeChar at hb ⊢
  simp only at hb ⊢
  split_ifs at hb ⊢ with h1 h2 h3
  · simp at hb; simp [hb]
  · simp at hb; omega
  · simp at hb; omega
  · simp at hb; omega

theorem utf8EncodeChar_ne_nil (c : Char) : utf8EncodeChar c ≠ [] := by
  unfold utf8EncodeChar
  simp only
  split_ifs <;> simp

/-- The encoding of a code point is read off the bytes in one way only. -/
theorem utf8EncodeChar_cancel (c d : Char) (x y : Bytes)
    (h : utf8EncodeChar c ++ x = utf8EncodeChar d ++ y) : c = d ∧ x = y := by
  have hc := char_toNat_lt c
  have hd := char_toNat_lt d
  unfold utf8EncodeChar at h
  simp only at h
  split_ifs at h <;>
    simp only [List.cons_append, List.nil_append, List.cons.injEq] at h <;>
    first
      | (obtain ⟨h1, hxy⟩ := h; exact ⟨char_eq_of_toNat_eq (by omega), hxy⟩)
      | (obtain ⟨h1, h2, hxy⟩ := h; exact ⟨char_eq_of_toNat_eq (by omega), hxy⟩)
      | (obtain ⟨h1, h2, h3, hxy⟩ := h; exact ⟨char_eq_of_toNat_eq (by omega), hxy⟩)
      | (obtain ⟨h1, h2, h3, h4, hxy⟩ := h; exact ⟨char_eq_of_toNat_eq (by omega), hxy⟩)
      | (exfalso; have h1 := h.1; omega)

theorem utf8_injective (a b : List Char) (h : utf8 a = utf8 b) : a = b := by
  induction a generalizing b with
  | nil =>
      cases b with
      | nil => rfl
      | cons d ds =>
          simp only [utf8] at h
          have := utf8EncodeChar_ne_nil d
          cases hd : utf8EncodeChar d with
          | nil => exact absurd hd this
          | cons x xs => rw [hd] at h; simp at h
  | cons c cs ih =>
      cases b with
      | nil =>
          simp only [utf8] at h
          have := utf8EncodeChar_ne_nil c
          cases hc : utf8EncodeChar c with
          | nil => exact absurd hc this
          | cons x xs => rw [hc] at h; simp at h
      | cons d ds =>
          simp only [utf8] at h
          obtain ⟨hcd, hrest⟩ := utf8EncodeChar_cancel c d _ _ h
          rw [hcd, ih ds hrest]

theorem bytesOf_injective (a b : String) (h : bytesOf a = bytesOf b) : a = b :=
  String.ext (utf8_injective _ _ h)

/-- A byte below 128 occurs in the bytes of a text only as the character it
encodes. -/
theorem mem_utf8_low (l : List Char) (b : Nat) (hlow : b < 128) (hb : b ∈ utf8 l) :
    ∃ c ∈ l, c.toNat = b := by
  induction l with
  | nil => simp [utf8] at hb
  | cons c cs ih =>
      simp only [utf8, List.mem_append] at hb
      rcases hb with hb | hb
      · exact ⟨c, List.mem_cons_self _ _, (utf8EncodeChar_low c b hb hlow).1⟩
      · obtain ⟨x, hx, hxb⟩ := ih hb
        exact ⟨x, List.mem_cons_of_mem _ hx, hxb⟩

theorem utf8_plain (l : List Char) (h : ∀ c ∈ l, isSpecial c = false) :
    ∀ b ∈ utf8 l, b ≠ 10 ∧ b ≠ 13 ∧ b ≠ 34 ∧ b ≠ 44 := by
  intro b hb
  have key : ∀ (n : Nat) (ch : Char), n < 128 → ch.toNat = n → isSpecial ch = true → b ≠ n := by
    intro n ch hn hch hsp hbn
    subst hbn
    obtain ⟨c, hc, hcb⟩ := mem_utf8_low l b hn hb
    have : c = ch := char_eq_of_toNat_eq (by rw [hcb, hch])
    rw [this] at hc
    rw [h ch hc] at hsp
    exact absurd hsp (by simp)
  exact ⟨key 10 '\n' (by decide) (by decide) (by decide),
    key 13 '\r' (by decide) (by decide) (by decide),
    key 34 '"' (by decide) (by decide) (by decide),
    key 44 ',' (by decide) (by decide) (by decide)⟩

/-! ## The reader on written text -/

/-- Bytes that are neither a delimiter nor a quote extend a non-quoted field. -/
theorem run_unquoted (bs rest : Bytes) (hbs : ∀ b ∈ bs, b ≠ 10 ∧ b ≠ 13 ∧ b ≠ 34 ∧ b ≠ 44)
    (field : Bytes) (fields : List Bytes) (records : List (List Bytes)) :
    Reader.run ⟨.unquoted, field, fields, records⟩ (bs ++ rest) =
      Reader.run ⟨.unquoted, field ++ bs, fields, records⟩ rest := by
  induction bs generalizing field with
  | nil => simp
  | cons b bs ih =>
      obtain ⟨h10, _, h34, h44⟩ := hbs b (List.mem_cons_self _ _)
      have hstep : Reader.step ⟨.unquoted, field, fields, records⟩ b =
          .ok ⟨.unquoted, field ++ [b], fields, records⟩ := by
        simp [Reader.step, h10, h34, h44]
      rw [List.cons_append, Reader.run, hstep]
      simp only
      rw [ih (fun x hx => hbs x (List.mem_cons_of_mem _ hx))]
      simp

/-- Such bytes at the start of a line or of a field begin a non-quoted field. -/
theorem run_start (m : Mode) (hm : m = .lineStart ∨ m = .fieldStart) (b : Nat) (bs rest : Bytes)
    (hbs : ∀ x ∈ b :: bs, x ≠ 10 ∧ x ≠ 13 ∧ x ≠ 34 ∧ x ≠ 44)
    (fields : List Bytes) (records : List (List Bytes)) :
    Reader.run ⟨m, [], fields, records⟩ (b :: bs ++ rest) =
      Reader.run ⟨.unquoted, b :: bs, fields, records⟩ rest := by
  obtain ⟨h10, _, h34, h44⟩ := hbs b (List.mem_cons_self _ _)
  have hstep : Reader.step ⟨m, [], fields, records⟩ b = .ok ⟨.unquoted, [b], fields, records⟩ := by
    rcases hm with h | h <;> subst h <;> simp [Reader.step, h10, h34, h44]
  rw [List.cons_append, Reader.run, hstep]
  simp only
  rw [run_unquoted bs rest (fun x hx => hbs x (List.mem_cons_of_mem _ hx))]
  simp

/-- Bytes other than the quote extend a quoted field. -/
theorem run_quoted_plain (bs rest : Bytes) (hbs : ∀ b ∈ bs, b ≠ 34)
    (field : Bytes) (fields : List Bytes) (records : List (List Bytes)) :
    Reader.run ⟨.quoted, field, fields, records⟩ (bs ++ rest) =
      Reader.run ⟨.quoted, field ++ bs, fields, records⟩ rest := by
  induction bs generalizing field with
  | nil => simp
  | cons b bs ih =>
      have h34 := hbs b (List.mem_cons_self _ _)
      have hstep : Reader.step ⟨.quoted, field, fields, records⟩ b =
          .ok ⟨.quoted, field ++ [b], fields, records⟩ := by
        simp [Reader.step, h34]
      rw [List.cons_append, Reader.run, hstep]
      simp only
      rw [ih (fun x hx => hbs x (List.mem_cons_of_mem _ hx))]
      simp

theorem utf8EncodeChar_quote : utf8EncodeChar '"' = [34] := by decide

theorem utf8EncodeChar_no_quote (c : Char) (hc : c ≠ '"') : ∀ b ∈ utf8EncodeChar c, b ≠ 34 := by
  intro b hb h34
  subst h34
  have := (utf8EncodeChar_low c 34 hb (by decide)).1
  exact hc (char_eq_of_toNat_eq (by rw [this]; decide))

/-- The inside of a quoted field as written is read back as the field. -/
theorem run_quoted_body (f : List Char) (rest : Bytes)
    (field : Bytes) (fields : List Bytes) (records : List (List Bytes)) :
    Reader.run ⟨.quoted, field, fields, records⟩ (utf8 (writeQuoted f) ++ rest) =
      Reader.run ⟨.quoted, field ++ utf8 f, fields, records⟩ rest := by
  induction f generalizing field with
  | nil => simp [writeQuoted, utf8]
  | cons c cs ih =>
      by_cases hc : c = '"'
      · subst hc
        have h1 : Reader.step ⟨.quoted, field, fields, records⟩ 34 =
            .ok ⟨.quoteSeen, field, fields, records⟩ := by simp [Reader.step]
        have h2 : Reader.step ⟨.quoteSeen, field, fields, records⟩ 34 =
            .ok ⟨.quoted, field ++ [34], fields, records⟩ := by simp [Reader.step]
        have hw : utf8 (writeQuoted ('"' :: cs)) ++ rest =
            34 :: 34 :: (utf8 (writeQuoted cs) ++ rest) := by
          have e : writeQuoted ('"' :: cs) = '"' :: '"' :: writeQuoted cs := by simp [writeQuoted]
          rw [e]
          show (utf8EncodeChar '"' ++ (utf8EncodeChar '"' ++ utf8 (writeQuoted cs))) ++ rest = _
          rw [utf8EncodeChar_quote]
          rfl
        have hf : utf8 ('"' :: cs) = 34 :: utf8 cs := by
          show utf8EncodeChar '"' ++ utf8 cs = _
          rw [utf8EncodeChar_quote]
          rfl
        rw [hw, hf, Reader.run, h1]
        simp only
        rw [Reader.run, h2]
        simp only
        rw [ih]
        simp
      · simp only [writeQuoted, hc, if_false, utf8, List.append_assoc]
        rw [run_quoted_plain _ _ (utf8EncodeChar_no_quote c hc), ih]
        simp

/-- State of the reader once a written field has been taken in, on the byte
that follows it: either nothing was consumed (the empty field), or the field
stands complete in a non-quoted field or behind its closing quote. -/
theorem run_field (m : Mode) (hm : m = .lineStart ∨ m = .fieldStart) (f : List Char)
    (rest : Bytes) (fields : List Bytes) (records : List (List Bytes)) :
    (f = [] ∧ utf8 (writeField f) = []) ∨
    (Reader.run ⟨m, [], fields, records⟩ (utf8 (writeField f) ++ rest) =
        Reader.run ⟨.unquoted, utf8 f, fields, records⟩ rest) ∨
    (Reader.run ⟨m, [], fields, records⟩ (utf8 (writeField f) ++ rest) =
        Reader.run ⟨.quoteSeen, utf8 f, fields, records⟩ rest) := by
  cases hq : fieldNeedsQuotes f with
  | true =>
      right; right
      have hw : utf8 (writeField f) ++ rest = 34 :: (utf8 (writeQuoted f) ++ 34 :: rest) := by
        simp only [writeField, hq, if_true]
        show (utf8EncodeChar '"' ++ utf8 (writeQuoted f ++ ['"'])) ++ rest = _
        rw [utf8_append, utf8EncodeChar_quote]
        show [34] ++ (utf8 (writeQuoted f) ++ (utf8EncodeChar '"' ++ [])) ++ rest = _
        rw [utf8EncodeChar_quote]
        simp
      have h1 : Reader.step ⟨m, [], fields, records⟩ 34 = .ok ⟨.quoted, [], fields, records⟩ := by
        rcases hm with h | h <;> subst h <;> simp [Reader.step]
      have h2 : Reader.step ⟨.quoted, utf8 f, fields, records⟩ 34 =
          .ok ⟨.quoteSeen, utf8 f, fields, records⟩ := by simp [Reader.step]
      rw [hw, Reader.run, h1]
      simp only
      rw [run_quoted_body, List.nil_append, Reader.run, h2]
  | false =>
      have hplain := utf8_plain f (not_special_of_unquoted f hq)
      have hw : writeField f = f := by simp [writeField, hq]
      rw [hw]
      cases hb : utf8 f with
      | nil =>
          left
          cases f with
          | nil => exact ⟨rfl, rfl⟩
          | cons c cs =>
              simp only [utf8] at hb
              have := utf8EncodeChar_ne_nil c
              cases hc : utf8EncodeChar c with
              | nil => exact absurd hc this
              | cons x xs => rw [hc] at hb; simp at hb
      | cons b bs =>
          right; left
          rw [hb] at hplain
          exact run_start m hm b bs rest hplain fields records

/-- A written field followed by a comma is read as one more field. -/
theorem run_field_comma (m : Mode) (hm : m = .lineStart ∨ m = .fieldStart) (f : List Char)
    (rest : Bytes) (fields : List Bytes) (records : List (List Bytes)) :
    Reader.run ⟨m, [], fields, records⟩ (utf8 (writeField f) ++ 44 :: rest) =
      Reader.run ⟨.fieldStart, [], fields ++ [utf8 f], records⟩ rest := by
  rcases run_field m hm f (44 :: rest) fields records with ⟨hf, he⟩ | h | h
  · subst hf
    rw [he, List.nil_append, Reader.run]
    rcases hm with h | h <;> subst h <;> simp [Reader.step, Reader.endField, utf8]
  · rw [h, Reader.run]
    simp [Reader.step, Reader.endField]
  · rw [h, Reader.run]
    simp [Reader.step, Reader.endField]

/-- A written field followed by a line feed ends the record, unless the line
holds nothing else, in which case the reader skips the line. -/
theorem run_field_newline (m : Mode) (hm : m = .lineStart ∨ m = .fieldStart) (f : List Char)
    (hblank : ¬(m = .lineStart ∧ f = []))
    (rest : Bytes) (fields : List Bytes) (records : List (List Bytes)) :
    Reader.run ⟨m, [], fields, records⟩ (utf8 (writeField f) ++ 10 :: rest) =
      match commitRecord records (fields ++ [utf8 f]) with
      | .ok r1 => r1.run rest
      | .error e => .error e := by
  rcases run_field m hm f (10 :: rest) fields records with ⟨hf, he⟩ | h | h
  · subst hf
    have hm2 : m = .fieldStart := by
      rcases hm with h | h
      · exact absurd ⟨h, rfl⟩ hblank
      · exact h
    subst hm2
    rw [he, List.nil_append, Reader.run]
    simp [Reader.step, Reader.endRecord, utf8]
  · rw [h, Reader.run]
    simp [Reader.step, Reader.endRecord]
  · rw [h, Reader.run]
    simp [Reader.step, Reader.endRecord]

theorem utf8_comma (l : List Char) : utf8 (',' :: l) = 44 :: utf8 l := by
  show utf8EncodeChar ',' ++ utf8 l = _
  have : utf8EncodeChar ',' = [44] := by decide
  rw [this]
  rfl

theorem utf8_newline (l : List Char) : utf8 ('\n' :: l) = 10 :: utf8 l := by
  show utf8EncodeChar '\n' ++ utf8 l = _
  have : utf8EncodeChar '\n' = [10] := by decide
  rw [this]
  rfl

/-- A written row followed by a line feed is read as one record, unless the
row is written as an empty line. -/
theorem run_row (m : Mode) (hm : m = .lineStart ∨ m = .fieldStart) (f : String) (fs : List String)
    (hblank : ¬(m = .lineStart ∧ fs = [] ∧ f.data = []))
    (rest : Bytes) (fields : List Bytes) (records : List (List Bytes)) :
    Reader.run ⟨m, [], fields, records⟩ (utf8 (writeFields (f :: fs)) ++ 10 :: rest) =
      match commitRecord records (fields ++ (f :: fs).map bytesOf) with
      | .ok r1 => r1.run rest
      | .error e => .error e := by
  induction fs generalizing f m fields with
  | nil =>
      have := run_field_newline m hm f.data (fun h => hblank ⟨h.1, rfl, h.2⟩) rest fields records
      simpa [writeFields, bytesOf] using this
  | cons g gs ih =>
      have hw : utf8 (writeFields (f :: g :: gs)) ++ 10 :: rest =
          utf8 (writeField f.data) ++ 44 :: (utf8 (writeFields (g :: gs)) ++ 10 :: rest) := by
        have e : writeFields (f :: g :: gs) = writeField f.data ++ ',' :: writeFields (g :: gs) := by
          simp [writeFields]
        rw [e, utf8_append, utf8_comma]
        simp
      rw [hw, run_field_comma m hm,
        ih .fieldStart (Or.inr rfl) g (fun h => absurd h.1 (by decide))]
      simp [bytesOf]

theorem commitRecord_ok (records : List (List Bytes)) (record : List Bytes)
    (h : ∀ r ∈ records, r.length = record.length) :
    commitRecord records record = .ok ⟨.lineStart, [], [], records ++ [record]⟩ := by
  cases records with
  | nil => rfl
  | cons first more =>
      have := h first (List.mem_cons_self _ _)
      simp [commitRecord, this]

/-- Written rows of one length, none of them written as an empty line, are read
back one record each, in order. -/
theorem run_rows (n : Nat) (rows : List (List String))
    (hrows : ∀ row ∈ rows, row.length = n ∧ row ≠ [] ∧ row ≠ [""])
    (records : List (List Bytes)) (hrecs : ∀ r ∈ records, r.length = n) :
    Reader.run ⟨.lineStart, [], [], records⟩ (utf8 (writeRecords rows)) =
      .ok (records ++ rows.map (fun row => row.map bytesOf)) := by
  induction rows generalizing records with
  | nil => simp [writeRecords, utf8, Reader.run, Reader.finish]
  | cons row more ih =>
      obtain ⟨hlen, hne, hblank⟩ := hrows row (List.mem_cons_self _ _)
      obtain ⟨f, fs, rfl⟩ := List.exists_cons_of_ne_nil hne
      have hw : utf8 (writeRecords ((f :: fs) :: more)) =
          utf8 (writeFields (f :: fs)) ++ 10 :: utf8 (writeRecords more) := by
        simp only [writeRecords, writeRecord, utf8_append, List.append_assoc]
        rw [← utf8_append, List.singleton_append, utf8_newline]
      have hb : ¬(Mode.lineStart = Mode.lineStart ∧ fs = [] ∧ f.data = []) := by
        rintro ⟨_, hfs, hf⟩
        apply hblank
        rw [hfs]
        have : f = "" := String.ext hf
        rw [this]
      rw [hw, run_row .lineStart (Or.inl rfl) f fs hb, List.nil_append,
        commitRecord_ok records ((f :: fs).map bytesOf)
          (fun r hr => by rw [hrecs r hr, List.length_map, hlen])]
      simp only
      rw [ih (fun r hr => hrows r (List.mem_cons_of_mem _ hr))
        (records ++ [(f :: fs).map bytesOf])
        (fun r hr => by
          rcases List.mem_append.mp hr with h | h
          · exact hrecs r h
          · rw [List.mem_singleton.mp h, List.length_map, hlen])]
      simp

/-! ## Line ends -/

theorem crSafe_cons (b : Nat) (rest : Bytes) :
    crSafe (b :: rest) = (!(b = 13 && (rest.isEmpty || rest.head? = some 10)) && crSafe rest) := rfl

/-- The rewriting of line ends leaves a safe start of the input as it is. -/
theorem normalizeNL_append (a b : Bytes) (ha : crSafe a = true) :
    normalizeNL (a ++ b) = a ++ normalizeNL b := by
  induction a with
  | nil => rfl
  | cons x xs ih =>
      rw [crSafe_cons] at ha
      simp only [Bool.and_eq_true, Bool.not_eq_true', Bool.and_eq_false_imp, decide_eq_true_eq,
        Bool.or_eq_false_iff] at ha
      obtain ⟨hx, hxs⟩ := ha
      have hcond : ¬(x = 13 ∧ (xs ++ b = [] ∨ (xs ++ b).head? = some 10)) := by
        rintro ⟨h13, h⟩
        obtain ⟨hempty, hhead⟩ := hx h13
        cases xs with
        | nil => simp at hempty
        | cons y ys =>
            rcases h with h | h
            · simp at h
            · simp only [List.cons_append, List.head?_cons, Option.some.injEq] at h
              simp [h] at hhead
      rw [List.cons_append, normalizeNL, if_neg hcond, ih hxs]
      rfl

theorem normalizeNL_of_crSafe (a : Bytes) (ha : crSafe a = true) : normalizeNL a = a := by
  have := normalizeNL_append a [] ha
  simpa [normalizeNL] using this

theorem crSafe_append (a b : Bytes) (ha : crSafe a = true) (hb : crSafe b = true) :
    crSafe (a ++ b) = true := by
  induction a with
  | nil => exact hb
  | cons x xs ih =>
      rw [crSafe_cons] at ha
      rw [List.cons_append, crSafe_cons]
      simp only [Bool.and_eq_true, Bool.not_eq_true', Bool.and_eq_false_imp, decide_eq_true_eq,
        Bool.or_eq_false_iff] at ha ⊢
      obtain ⟨hx, hxs⟩ := ha
      refine ⟨fun h13 => ?_, ih hxs⟩
      obtain ⟨hempty, hhead⟩ := hx h13
      cases xs with
      | nil => simp at hempty
      | cons y ys => simpa using hhead

/-- Bytes without a `\r` in front of other bytes do not matter. -/
theorem crSafe_plain_append (a b : Bytes) (ha : ∀ x ∈ a, x ≠ 13) :
    crSafe (a ++ b) = crSafe b := by
  induction a with
  | nil => rfl
  | cons x xs ih =>
      have hx := ha x (List.mem_cons_self _ _)
      rw [List.cons_append, crSafe_cons, ih (fun y hy => ha y (List.mem_cons_of_mem _ hy))]
      simp [hx]

theorem crSafe_plain (a : Bytes) (ha : ∀ x ∈ a, x ≠ 13) : crSafe a = true := by
  have := crSafe_plain_append a [] ha
  simpa [crSafe] using this

theorem utf8EncodeChar_no_byte (c : Char) (n : Nat) (hn : n < 128) (hc : c.toNat ≠ n) :
    ∀ b ∈ utf8EncodeChar c, b ≠ n := by
  intro b hb hbn
  subst hbn
  exact hc (utf8EncodeChar_low c b hb hn).1

theorem head?_append_of_ne_nil (a b : Bytes) (ha : a ≠ []) : (a ++ b).head? = a.head? := by
  cases a with
  | nil => exact absurd rfl ha
  | cons x xs => rfl

/-- What follows a `\r` inside a quoted field as written is never a `\n`,
when no `\n` follows that `\r` in the field. -/
theorem head_writeQuoted (cs : List Char) (hcs : cs.head? ≠ some '\n') :
    (utf8 (writeQuoted cs) ++ [34]).isEmpty = false ∧
    (utf8 (writeQuoted cs) ++ [34]).head? ≠ some 10 := by
  cases cs with
  | nil => simp [writeQuoted, utf8]
  | cons d ds =>
      have hd : d ≠ '\n' := by simpa using hcs
      have hne := utf8EncodeChar_ne_nil
      by_cases hq : d = '"'
      · subst hq
        simp only [writeQuoted, if_true, utf8, utf8EncodeChar_quote]
        simp
      · simp only [writeQuoted, hq, if_false, utf8, List.append_assoc]
        constructor
        · cases h : utf8EncodeChar d with
          | nil => exact absurd h (hne d)
          | cons x xs => simp
        · rw [head?_append_of_ne_nil _ _ (hne d)]
          cases h : utf8EncodeChar d with
          | nil => exact absurd h (hne d)
          | cons x xs =>
              simp only [List.head?_cons, ne_eq, Option.some.injEq]
              have hx : x ∈ utf8EncodeChar d := by rw [h]; exact List.mem_cons_self _ _
              have hdn : d.toNat ≠ 10 := fun e => hd (char_eq_of_toNat_eq (by rw [e]; decide))
              exact utf8EncodeChar_no_byte d 10 (by decide) hdn x hx

theorem crSafe_writeQuoted (f : List Char) (hf : noCRLF f = true) :
    crSafe (utf8 (writeQuoted f) ++ [34]) = true := by
  induction f with
  | nil => decide
  | cons c cs ih =>
      simp only [noCRLF, Bool.and_eq_true, Bool.not_eq_true', Bool.and_eq_false_imp,
        decide_eq_true_eq] at hf
      obtain ⟨hc, hcs⟩ := hf
      by_cases hq : c = '"'
      · subst hq
        have e : utf8 (writeQuoted ('"' :: cs)) ++ [34] =
            [34, 34] ++ (utf8 (writeQuoted cs) ++ [34]) := by
          simp only [writeQuoted, if_true, utf8, utf8EncodeChar_quote]
          simp
        rw [e, crSafe_plain_append _ _ (by decide)]
        exact ih hcs
      · by_cases hr : c = '\r'
        · subst hr
          have hhead : cs.head? ≠ some '\n' := by
            intro h
            have := hc rfl
            simp [h] at this
          obtain ⟨h1, h2⟩ := head_writeQuoted cs hhead
          have e : utf8 (writeQuoted ('\r' :: cs)) ++ [34] =
              13 :: (utf8 (writeQuoted cs) ++ [34]) := by
            have e13 : utf8EncodeChar '\r' = [13] := by decide
            simp only [writeQuoted, utf8, e13]
            simp
          have h3 : decide ((utf8 (writeQuoted cs) ++ [34]).head? = some 10) = false :=
            decide_eq_false h2
          rw [e, crSafe_cons, ih hcs, h1, h3]
          rfl
        · have e : utf8 (writeQuoted (c :: cs)) ++ [34] =
              utf8EncodeChar c ++ (utf8 (writeQuoted cs) ++ [34]) := by
            simp only [writeQuoted, hq, if_false, utf8, List.append_assoc]
          have hcn : c.toNat ≠ 13 := fun e => hr (char_eq_of_toNat_eq (by rw [e]; decide))
          rw [e, crSafe_plain_append _ _ (utf8EncodeChar_no_byte c 13 (by decide) hcn)]
          exact ih hcs

theorem crSafe_writeField (f : List Char) (hf : noCRLF f = true) :
    crSafe (utf8 (writeField f)) = true := by
  cases hq : fieldNeedsQuotes f with
  | true =>
      have e : utf8 (writeField f) = [34] ++ (utf8 (writeQuoted f) ++ [34]) := by
        simp only [writeField, hq, if_true]
        show utf8EncodeChar '"' ++ utf8 (writeQuoted f ++ ['"']) = _
        rw [utf8_append, utf8EncodeChar_quote]
        show [34] ++ (utf8 (writeQuoted f) ++ (utf8EncodeChar '"' ++ [])) = _
        rw [utf8EncodeChar_quote]
        rfl
      rw [e, crSafe_plain_append _ _ (by decide)]
      exact crSafe_writeQuoted f hf
  | false =>
      have hw : writeField f = f := by simp [writeField, hq]
      rw [hw]
      exact crSafe_plain _ (fun b hb => (utf8_plain f (not_special_of_unquoted f hq) b hb).2.1)

theorem crSafe_writeFields (row : List String) (h : ∀ f ∈ row, noCRLF f.data = true) :
    crSafe (utf8 (writeFields row)) = true := by
  induction row with
  | nil => rfl
  | cons f fs ih =>
      cases fs with
      | nil => simpa [writeFields] using crSafe_writeField f.data (h f (List.mem_cons_self _ _))
      | cons g gs =>
          have e : utf8 (writeFields (f :: g :: gs)) =
              utf8 (writeField f.data) ++ ([44] ++ utf8 (writeFields (g :: gs))) := by
            have e1 : writeFields (f :: g :: gs) = writeField f.data ++ ',' :: writeFields (g :: gs) := by
              simp [writeFields]
            rw [e1, utf8_append, utf8_comma]
            rfl
          rw [e]
          apply crSafe_append _ _ (crSafe_writeField f.data (h f (List.mem_cons_self _ _)))
          rw [crSafe_plain_append _ _ (by decide)]
          exact ih (fun x hx => h x (List.mem_cons_of_mem _ hx))

theorem crSafe_writeRecords (rows : List (List String))
    (h : ∀ row ∈ rows, ∀ f ∈ row, noCRLF f.data = true) :
    crSafe (utf8 (writeRecords rows)) = true := by
  induction rows with
  | nil => rfl
  | cons row more ih =>
      have e : utf8 (writeRecords (row :: more)) =
          utf8 (writeFields row) ++ ([10] ++ utf8 (writeRecords more)) := by
        simp only [writeRecords, writeRecord, utf8_append, List.append_assoc]
        rw [← utf8_append, List.singleton_append, utf8_newline]
        rfl
      rw [e]
      apply crSafe_append _ _ (crSafe_writeFields row (h row (List.mem_cons_self _ _)))
      rw [crSafe_plain_append _ _ (by decide)]
      exact ih (fun r hr => h r (List.mem_cons_of_mem _ hr))

/-- Written rows of one length, none written as an empty line and no field
with a `\r` right before a `\n`, are read back by `ReadAll` as they were. -/
theorem csvReadAll_writeRecords (n : Nat) (rows : List (List String))
    (hrows : ∀ row ∈ rows, row.length = n ∧ row ≠ [] ∧ row ≠ [""])
    (hcr : ∀ row ∈ rows, ∀ f ∈ row, noCRLF f.data = true) :
    csvReadAll (utf8 (writeRecords rows)) = .ok (rows.map (fun row => row.map bytesOf)) := by
  rw [csvReadAll, normalizeNL_of_crSafe _ (crSafe_writeRecords rows hcr),
    run_rows n rows hrows [] (by simp)]
  simp

theorem lookupKey_zip (headers : List String) (cell : String → String) (key : String)
    (hk : key ∈ headers) :
    lookupKey (bytesOf key) ((headers.map bytesOf).zip ((headers.map cell).map bytesOf)) =
      some (bytesOf (cell key)) := by
  induction headers with
  | nil => simp at hk
  | cons h hs ih =>
      simp only [List.map_cons, List.zip_cons_cons, lookupKey]
      by_cases hb : bytesOf h = bytesOf key
      · rw [if_pos hb, bytesOf_injective _ _ hb]
      · rw [if_neg hb]
        rcases List.mem_cons.mp hk with h1 | h1
        · exact absurd (by rw [h1]) hb
        · exact ih h1

/-! ## The round trip through CSV -/

/-- C2 (counterexample): the record set `[{"a": ""}]`, one record with the one key
`a`, is written as the bytes of `a\n\n`; the reader skips the empty line and
returns the header row alone, so no record is read back where the input has
one. -/
theorem csv_round_trip_loses_empty_line :
    MapRange.Valid rangeKeys ∧
    ([[("a", Value.string "")]] : List Record) ≠ [] ∧
    UniformKeys [[("a", Value.string "")]] ∧
    generateCSV rangeKeys [[("a", Value.string "")]] = .ok (bytesOf "a\n\n") ∧
    csvReadAll (bytesOf "a\n\n") = .ok [[bytesOf "a"]] ∧
    ¬ CsvRoundTrips rangeKeys [[("a", Value.string "")]] := by
  have hgen : generateCSV rangeKeys [[("a", Value.string "")]] = .ok (bytesOf "a\n\n") := by decide
  have hread : csvReadAll (bytesOf "a\n\n") = .ok [[bytesOf "a"]] := by decide
  refine ⟨rangeKeys_valid, List.cons_ne_nil _ _, ?_, hgen, hread, ?_⟩
  · intro first hfirst record hrecord key
    simp only [List.head?_cons, Option.mem_def, Option.some.injEq] at hfirst
    simp only [List.mem_singleton] at hrecord
    rw [hrecord, hfirst]
  · rintro ⟨out, rows, hout, hrows, hlen, _⟩
    rw [hgen] at hout
    injection hout with hout
    rw [← hout, hread] at hrows
    injection hrows with hrows
    rw [← hrows] at hlen
    exact absurd hlen (by decide)

theorem recordValues_ne_blank (headers : List String) (record : Record) (hne : headers ≠ [])
    (h : ∀ key, headers = [key] → ∀ value, record.lookup key = some value → sprintV value ≠ "")
    (hhas : ∀ key ∈ headers, (record.lookup key).isSome = true) :
    recordValues headers record ≠ [] ∧ recordValues headers record ≠ [""] := by
  obtain ⟨k, ks, rfl⟩ := List.exists_cons_of_ne_nil hne
  refine ⟨by simp [recordValues], ?_⟩
  intro hrow
  cases ks with
  | cons k2 ks2 => simp [recordValues] at hrow
  | nil =>
      have hk := hhas k (List.mem_cons_self _ _)
      cases hl : record.lookup k with
      | none => rw [hl] at hk; simp at hk
      | some value =>
          simp only [recordValues, List.map_cons, List.map_nil, hl, List.cons.injEq, and_true] at hrow
          exact h k rfl value hl hrow

/-- C2 (amended): a non-empty record set whose records all have the same keys
round-trips through CSV when the key set is not empty, when, if there is a
single key, that key and the text of every value are not empty, and when no
key and no value text holds a carriage return right before a line feed:
`generateCSV` returns bytes from which the reader reads as many records as
the input has, and the record of index i read by header maps every key to the
`%v` text of the value that the input record of index i has at that key. -/
theorem csv_round_trip (ρ : MapRange) (hρ : ρ.Valid) (data : List Record) (hne : data ≠ [])
    (huni : UniformKeys data)
    (hkeys : (data.head hne).keys ≠ [])
    (hsingle : ∀ key : String, (data.head hne).keys = [key] →
      key ≠ "" ∧ ∀ record ∈ data, ∀ value : Value, record.lookup key = some value →
        sprintV value ≠ "")
    (hcrKeys : ∀ key ∈ (data.head hne).keys, noCRLF key.data = true)
    (hcrValues : ∀ record ∈ data, ∀ (key : String) (value : Value),
      record.lookup key = some value → noCRLF (sprintV value).data = true) :
    CsvRoundTrips ρ data := by
  obtain ⟨first, rest, rfl⟩ := List.exists_cons_of_ne_nil hne
  simp only [List.head_cons] at hkeys hsingle hcrKeys
  have hperm := hρ 0 first
  have hmem : ∀ key, key ∈ ρ 0 first ↔ key ∈ first.keys := fun key => hperm.mem_iff
  have hhdr : ρ 0 first ≠ [] := fun h => hkeys (by rw [h] at hperm; exact List.perm_nil.mp hperm.symm |>.symm ▸ rfl)
  have hhas : ∀ record ∈ first :: rest, ∀ key ∈ ρ 0 first, (record.lookup key).isSome = true := by
    intro record hrecord key hkey
    rw [huni first (by simp) record hrecord key]
    exact (lookupKey_isSome_iff key first).mpr ((hmem key).mp hkey)
  have hsingle2 : ∀ key, ρ 0 first = [key] → first.keys = [key] := by
    intro key h
    rw [h] at hperm
    exact List.perm_singleton.mp hperm.symm
  have hrows : ∀ row ∈ ρ 0 first :: (first :: rest).map (recordValues (ρ 0 first)),
      row.length = (ρ 0 first).length ∧ row ≠ [] ∧ row ≠ [""] := by
    intro row hrow
    rcases List.mem_cons.mp hrow with h | h
    · subst h
      refine ⟨rfl, hhdr, ?_⟩
      intro hb
      exact (hsingle "" (hsingle2 "" hb)).1 rfl
    · obtain ⟨record, hrecord, rfl⟩ := List.mem_map.mp h
      have := recordValues_ne_blank (ρ 0 first) record hhdr
        (fun key hk value hv => (hsingle key (hsingle2 key hk)).2 record hrecord value hv)
        (hhas record hrecord)
      exact ⟨by simp [recordValues], this.1, this.2⟩
  have hcr : ∀ row ∈ ρ 0 first :: (first :: rest).map (recordValues (ρ 0 first)),
      ∀ f ∈ row, noCRLF f.data = true := by
    intro row hrow f hf
    rcases List.mem_cons.mp hrow with h | h
    · subst h
      exact hcrKeys f ((hmem f).mp hf)
    · obtain ⟨record, hrecord, rfl⟩ := List.mem_map.mp h
      obtain ⟨key, _, rfl⟩ := List.mem_map.mp hf
      cases hl : record.lookup key with
      | none => rfl
      | some value => exact hcrValues record hrecord key value hl
  refine ⟨_, _, generateCSV_cons ρ first rest, csvReadAll_writeRecords _ _ hrows hcr, ?_, ?_⟩
  · simp [recordsByHeader]
  · intro i record key value hi hv
    have hrecord : record ∈ first :: rest := List.getElem?_mem hi
    have hkey : key ∈ ρ 0 first := by
      apply (hmem key).mpr
      apply (lookupKey_isSome_iff key first).mp
      have hu := huni first (by simp) record hrecord key
      rw [hv] at hu
      simpa [Record.lookup] using hu.symm
    refine ⟨(List.map bytesOf (ρ 0 first)).zip (List.map bytesOf (recordValues (ρ 0 first) record)),
      ?_, ?_⟩
    · have hall : recordsByHeader (List.map (fun row => List.map bytesOf row)
          (ρ 0 first :: List.map (recordValues (ρ 0 first)) (first :: rest))) =
          List.map (fun r => (List.map bytesOf (ρ 0 first)).zip
            (List.map bytesOf (recordValues (ρ 0 first) r))) (first :: rest) := by
        simp [recordsByHeader]
      rw [hall, List.getElem?_map, hi]
      rfl
    · have := lookupKey_zip (ρ 0 first) (fun header =>
        match record.lookup header with
        | some value => sprintV value
        | none => "") key hkey
      simp only [hv] at this
      exact this

theorem sampleTable_uniform : UniformKeys sampleTable := by
  intro first hfirst record hrecord key
  simp only [sampleTable, List.head?_cons, Option.mem_def, Option.some.injEq] at hfirst
  simp only [sampleTable, List.mem_cons, List.mem_singleton, List.not_mem_nil, or_false] at hrecord
  subst hfirst
  rcases hrecord with h | h <;> subst h <;>
    by_cases ha : "a" = key <;> by_cases hb : "b" = key <;>
    simp [Record.lookup, lookupKey, ha, hb]

/-- Instance of `csv_round_trip` on the sample table, with the keys enumerated in the opposite order. -/
theorem csv_round_trip_witness :
    MapRange.Valid rangeReversed ∧ sampleTable ≠ [] ∧ UniformKeys sampleTable ∧
    generateCSV rangeReversed sampleTable =
      .ok (bytesOf "b,a\n\"x,\r\"\"y\"\"\n\",1\n<nil>,\n") ∧
    CsvRoundTrips rangeReversed sampleTable :=
  ⟨rangeReversed_valid, List.cons_ne_nil _ _, sampleTable_uniform, by decide,
    csv_round_trip rangeReversed rangeReversed_valid sampleTable (List.cons_ne_nil _ _)
      sampleTable_uniform (by decide)
      (by
        intro key h
        have hlen : (sampleTable.head (List.cons_ne_nil _ _)).keys.length = 2 := by decide
        rw [h] at hlen
        simp at hlen)
      (by decide)
      (by
        intro record hrecord key value hv
        simp only [sampleTable, List.mem_cons, List.mem_singleton, List.not_mem_nil,
          or_false] at hrecord
        rcases hrecord with h | h <;> subst h <;>
          by_cases ha : "a" = key <;> by_cases hb : "b" = key <;>
          simp [Record.lookup, lookupKey, ha, hb] at hv <;>
          subst hv <;> decide)⟩

end DocMaker
